import Mathlib

/-!
Verification of the gosaidsno aspect-oriented-programming library core:
the execution context, the advice chain (including the execution-time
sort performed by Go's sort.Slice), the registry, and the five-phase
execution engine of src/aspect/wrap.go, src/aspect/context.go and the
registry/advice files.

Values stored in the untyped argument/result/metadata slots are modelled
as integers; Go nil-able slots are Option-valued.  Handler callbacks and
target thunks are deep-embedded as lists of primitive context writes plus
a returned error (for handlers) or an optional panic (for targets), which
keeps every run of the engine computable and decidable.
-/

namespace Gosaidsno

/-- Model of the Go error values produced by the library (and the
cancellation error of a context).  Errors made by advice handlers are
`user` values. -/
inductive GoErr where
  | emptyKey
  | alreadyRegistered (name : String)
  | notRegistered (name : String)
  | beforeAdviceFailed (e : GoErr)
  | aroundAdviceFailed (e : GoErr)
  | ctxCancelled
  | user (n : Int)
deriving DecidableEq, Repr

/-- A Go panic payload: either an error value (the engine panics with a
wrapped error) or an arbitrary value. -/
inductive PanicVal where
  | goError (e : GoErr)
  | value (v : Int)
deriving DecidableEq, Repr

/-- AdviceType of src/unnamed/part_009: the closed phase enumeration. -/
inductive AdviceType where
  | Before
  | After
  | Around
  | AfterReturning
  | AfterThrowing
deriving DecidableEq, Repr

/-- Execution context of src/aspect/context.go.  `cancelled` models
whether the carried context.Context's Done channel is already closed. -/
structure Context where
  functionName : String
  args : List Int
  results : List (Option Int)
  error : Option GoErr
  panicValue : Option PanicVal
  metadata : List (String × Int)
  skipped : Bool
  cancelled : Bool
deriving DecidableEq, Repr

/-- NewContextWithContext of context.go: fresh context with empty
results and metadata. -/
def NewContextWithContext (cancelled : Bool) (functionName : String)
    (args : List Int) : Context :=
  { functionName := functionName, args := args, results := [],
    error := none, panicValue := none, metadata := [],
    skipped := false, cancelled := cancelled }

/-- The extension loop of Context.SetResult: append nil placeholders
until index `n` exists. -/
def extendResults (l : List (Option Int)) (n : Nat) : List (Option Int) :=
  l ++ List.replicate (n + 1 - l.length) none

/-- Context.SetResult of context.go: negative index is a no-op, otherwise
the results slice is grown on demand and slot `index` is written. -/
def Context.SetResult (c : Context) (index : Int) (value : Option Int) : Context :=
  if index < 0 then c
  else { c with results := (extendResults c.results index.toNat).set index.toNat value }

/-- Context.GetResult of context.go: nil for an out-of-range index,
otherwise the stored slot. -/
def Context.GetResult (c : Context) (index : Int) : Option Int :=
  if index < 0 ∨ (c.results.length : Int) ≤ index then none
  else c.results.getD index.toNat none

/-- Context.HasPanic of context.go. -/
def Context.HasPanic (c : Context) : Bool :=
  c.panicValue ≠ none

/-- Assoc-list update modelling SetMetadataVal's map write. -/
def metaSet (m : List (String × Int)) (k : String) (v : Int) : List (String × Int) :=
  match m with
  | [] => [(k, v)]
  | (k', v') :: rest => if k' = k then (k, v) :: rest else (k', v') :: metaSet rest k v

/-- Primitive context writes a handler body may perform. -/
inductive HAct where
  | hSetError (e : Option GoErr)
  | hSetSkipped (b : Bool)
  | hSetResult (i : Int) (v : Option Int)
  | hSetMeta (k : String) (v : Int)
  | hSetPanic (p : Option PanicVal)
deriving DecidableEq, Repr

/-- Apply one primitive write to the context. -/
def applyAct (c : Context) : HAct → Context
  | .hSetError e => { c with error := e }
  | .hSetSkipped b => { c with skipped := b }
  | .hSetResult i v => c.SetResult i v
  | .hSetMeta k v => { c with metadata := metaSet c.metadata k v }
  | .hSetPanic p => { c with panicValue := p }

/-- Run a handler body: the sequence of its writes. -/
def applyActs (acts : List HAct) (c : Context) : Context :=
  acts.foldl applyAct c

/-- Advice of src/unnamed/part_009: a phase tag, a priority and a
handler.  The handler is deep-embedded as its context writes `acts`
followed by the returned error `ret`; `id` identifies the closure so
executions can be traced. -/
structure Advice where
  type : AdviceType
  priority : Int
  id : Nat
  acts : List HAct
  ret : Option GoErr
deriving DecidableEq, Repr

/-- Default advice value (used for out-of-range index reads, which never
occur in actual runs). -/
def dAdv : Advice :=
  { type := .Before, priority := 0, id := 0, acts := [], ret := none }

/-- AdviceChain of src/unnamed/part_009: one append-only bucket per phase. -/
structure AdviceChain where
  before : List Advice
  after : List Advice
  around : List Advice
  afterReturning : List Advice
  afterThrowing : List Advice
deriving DecidableEq, Repr

/-- NewAdviceChain: all buckets empty. -/
def NewAdviceChain : AdviceChain :=
  { before := [], after := [], around := [], afterReturning := [], afterThrowing := [] }

/-- AdviceChain.Add: append into the bucket matching the advice's type. -/
def AdviceChain.Add (ac : AdviceChain) (advice : Advice) : AdviceChain :=
  match advice.type with
  | .Before => { ac with before := ac.before ++ [advice] }
  | .After => { ac with after := ac.after ++ [advice] }
  | .Around => { ac with around := ac.around ++ [advice] }
  | .AfterReturning => { ac with afterReturning := ac.afterReturning ++ [advice] }
  | .AfterThrowing => { ac with afterThrowing := ac.afterThrowing ++ [advice] }

/-- AdviceChain.HasAround. -/
def AdviceChain.HasAround (ac : AdviceChain) : Bool :=
  ac.around.length > 0

/-- AdviceChain.Count. -/
def AdviceChain.Count (ac : AdviceChain) : Nat :=
  ac.before.length + ac.after.length + ac.around.length +
    ac.afterReturning.length + ac.afterThrowing.length

/-! ### Go sort.Slice

executeAdviceList sorts the snapshot with sort.Slice and the less
function `Priority[i] > Priority[j]`.  sort.Slice is Go's pdqsort
(sort/zsortfunc.go, Go 1.19 and later); it is transcribed here over
`List Advice` with integer indices.  Loops without a structural measure
take explicit fuel; all actual runs stay far below the fuel supplied by
`sortSliceGo`. -/

/-- Read index `i`; out-of-range reads (never reached in real runs)
give the default advice. -/
def iget (l : List Advice) (i : Int) : Advice :=
  if h : 0 ≤ i ∧ i.toNat < l.length then l.get ⟨i.toNat, h.2⟩ else dAdv

/-- The less function sort.Slice is given:
`Priority[i] > Priority[j]` (descending order). -/
def iless (l : List Advice) (i j : Int) : Bool :=
  decide ((iget l i).priority > (iget l j).priority)

/-- data.Swap.  Out-of-range swaps (never reached in real runs) are
identity. -/
def iswap (l : List Advice) (i j : Int) : List Advice :=
  if 0 ≤ i ∧ 0 ≤ j ∧ i.toNat < l.length ∧ j.toNat < l.length then
    (l.set i.toNat (iget l j)).set j.toNat (iget l i)
  else l

/-- Inner loop of insertionSort_func:
`for j := i; j > a && data.Less(j, j-1); j-- { data.Swap(j, j-1) }`.
The fuel counts the remaining iterations exactly: the loop moves j down
by one per iteration and stops at `a` at the latest. -/
def insInnerF (l : List Advice) (a j : Int) (fuel : Nat) : List Advice :=
  match fuel with
  | 0 => l
  | f + 1 =>
    if a < j ∧ iless l j (j - 1) then insInnerF (iswap l j (j - 1)) a (j - 1) f
    else l

/-- Inner loop of insertionSort_func with its exact iteration bound. -/
def insInner (l : List Advice) (a j : Int) : List Advice :=
  insInnerF l a j (j - a).toNat

/-- Outer loop of insertionSort_func: `for i := a + 1; i < b; i++`, with
fuel counting the remaining iterations exactly. -/
def insOuterF (l : List Advice) (a b i : Int) (fuel : Nat) : List Advice :=
  match fuel with
  | 0 => l
  | f + 1 => if i < b then insOuterF (insInner l a i) a b (i + 1) f else l

/-- Outer loop of insertionSort_func with its exact iteration bound. -/
def insOuter (l : List Advice) (a b i : Int) : List Advice :=
  insOuterF l a b i (b - i).toNat

/-- insertionSort_func sorts data[a:b] using insertion sort. -/
def insertionSortGo (l : List Advice) (a b : Int) : List Advice :=
  insOuter l a b (a + 1)

/-- siftDown_func: implements the heap property on data[lo:hi].
first + lo is the root of the heap. -/
def siftDownGo (l : List Advice) (lo hi first : Int) (fuel : Nat) : List Advice :=
  match fuel with
  | 0 => l
  | f + 1 =>
    let root := lo
    let child0 := 2 * root + 1
    if child0 ≥ hi then l
    else
      let child := if child0 + 1 < hi ∧ iless l (first + child0) (first + child0 + 1)
        then child0 + 1 else child0
      if ¬ iless l (first + root) (first + child) then l
      else siftDownGo (iswap l (first + root) (first + child)) child hi first f

/-- First loop of heapSort_func: build heap with greatest element at top,
`for i := (hi - 1) / 2; i >= 0; i--`.  `cnt` counts the remaining
iterations (i runs downward from `cnt - 1`). -/
def heapBuild (l : List Advice) (hi first : Int) (cnt : Nat) (fuel : Nat) : List Advice :=
  match cnt with
  | 0 => l
  | c + 1 => heapBuild (siftDownGo l (c : Int) hi first fuel) hi first c fuel

/-- Second loop of heapSort_func: pop elements, largest first, into the
end of data, `for i := hi - 1; i >= 0; i--`. -/
def heapPop (l : List Advice) (first : Int) (cnt : Nat) (fuel : Nat) : List Advice :=
  match cnt with
  | 0 => l
  | c + 1 => heapPop (siftDownGo (iswap l first (first + (c : Int))) 0 (c : Int) first fuel) first c fuel

/-- heapSort_func sorts data[a:b]. -/
def heapSortGo (l : List Advice) (a b : Int) (fuel : Nat) : List Advice :=
  let first := a
  let hi := b - a
  heapPop (heapBuild l hi first ((hi - 1) / 2 + 1).toNat fuel) first hi.toNat fuel

/-- bits.Len of math/bits: the number of bits required to represent x. -/
def goBitsLen (n : Nat) : Nat :=
  if n = 0 then 0 else Nat.log2 n + 1

/-- nextPowerOfTwo of sort: `1 << bits.Len(uint(length))`. -/
def nextPowerOfTwoGo (length : Nat) : Nat :=
  1 <<< goBitsLen length

/-- One step of the xorshift generator of sort (uint64 state):
`r ^= r << 13; r ^= r >> 7; r ^= r << 17`. -/
def xorshiftNext (r : Nat) : Nat :=
  let r1 := (r ^^^ ((r <<< 13) % 2 ^ 64)) % 2 ^ 64
  let r2 := (r1 ^^^ (r1 >>> 7)) % 2 ^ 64
  (r2 ^^^ ((r2 <<< 17) % 2 ^ 64)) % 2 ^ 64

/-- The three swaps of breakPatterns_func, `for i := 0; i < 3; i++`,
threading the xorshift state.  `steps` counts down from 3, `i = 3 - steps`. -/
def bpLoop (l : List Advice) (a : Int) (len : Nat) (idx : Int) (modulus : Nat)
    (r : Nat) (steps : Nat) : List Advice :=
  match steps with
  | 0 => l
  | s + 1 =>
    let r' := xorshiftNext r
    let other0 := r' &&& (modulus - 1)
    let other : Nat := if other0 ≥ len then other0 - len else other0
    let i : Nat := 3 - (s + 1)
    bpLoop (iswap l (idx - 1 + (i : Int)) (a + (other : Int))) a len idx modulus r' s

/-- breakPatterns_func scatters some elements around to break patterns
that might cause imbalanced partitions. -/
def breakPatternsGo (l : List Advice) (a b : Int) : List Advice :=
  let length := (b - a).toNat
  if length ≥ 8 then
    let modulus := nextPowerOfTwoGo length
    let idx := a + ((b - a) / 4) * 2 - 1
    bpLoop l a length idx modulus length 3
  else l

/-- order2_func returns x, y where x, y = a, b if !Less(b, a) else b, a,
counting a swap in the second case. -/
def order2Go (l : List Advice) (a b : Int) (swaps : Nat) : Int × Int × Nat :=
  if iless l b a then (b, a, swaps + 1) else (a, b, swaps)

/-- median_func returns the index holding the median of data[a], data[b],
data[c]. -/
def medianGo (l : List Advice) (a0 b0 c0 : Int) (s0 : Nat) : Int × Nat :=
  let (a1, b1, s1) := order2Go l a0 b0 s0
  let (b2, _c2, s2) := order2Go l b1 c0 s1
  let (_a3, b3, s3) := order2Go l a1 b2 s2
  (b3, s3)

/-- medianAdjacent_func finds the median of data[a-1], data[a], data[a+1]. -/
def medianAdjacentGo (l : List Advice) (a : Int) (s : Nat) : Int × Nat :=
  medianGo l (a - 1) a (a + 1) s

/-- The hint returned by choosePivot_func. -/
inductive SortedHint where
  | unknownHint
  | increasingHint
  | decreasingHint
deriving DecidableEq, Repr

/-- The final switch of choosePivot_func on the swap counter
(maxSwaps = 12). -/
def pivotHint (j : Int) (s : Nat) : Int × SortedHint :=
  if s = 0 then (j, .increasingHint)
  else if s = 12 then (j, .decreasingHint)
  else (j, .unknownHint)

/-- choosePivot_func chooses a pivot in data[a:b]: static for short
ranges, median-of-three for [8,50), Tukey ninther beyond. -/
def choosePivotGo (l : List Advice) (a b : Int) : Int × SortedHint :=
  let len := b - a
  let i0 := a + len / 4 * 1
  let j0 := a + len / 4 * 2
  let k0 := a + len / 4 * 3
  if len ≥ 8 then
    if len ≥ 50 then
      let (i1, s1) := medianAdjacentGo l i0 0
      let (j1, s2) := medianAdjacentGo l j0 s1
      let (k1, s3) := medianAdjacentGo l k0 s2
      let (j2, s4) := medianGo l i1 j1 k1 s3
      pivotHint j2 s4
    else
      let (j1, s1) := medianGo l i0 j0 k0 0
      pivotHint j1 s1
  else (j0, .increasingHint)

/-- reverseRange_func with fuel bounding the iterations. -/
def reverseRangeF (l : List Advice) (i j : Int) (fuel : Nat) : List Advice :=
  match fuel with
  | 0 => l
  | f + 1 => if i < j then reverseRangeF (iswap l i j) (i + 1) (j - 1) f else l

/-- reverseRange_func. -/
def reverseRangeGo (l : List Advice) (i j : Int) : List Advice :=
  reverseRangeF l i j (j - i).toNat

/-- partition_func skip loop `for i <= j && data.Less(i, a) { i++ }`. -/
def partSkipI (l : List Advice) (a i j : Int) (fuel : Nat) : Int :=
  match fuel with
  | 0 => i
  | f + 1 => if i ≤ j ∧ iless l i a then partSkipI l a (i + 1) j f else i

/-- partition_func skip loop `for i <= j && !data.Less(j, a) { j-- }`. -/
def partSkipJ (l : List Advice) (a i j : Int) (fuel : Nat) : Int :=
  match fuel with
  | 0 => j
  | f + 1 => if i ≤ j ∧ ¬ iless l j a then partSkipJ l a i (j - 1) f else j

/-- Main loop of partition_func after the first crossing swap. -/
def partitionLoopGo (l : List Advice) (a i j : Int) (fuel : Nat) : List Advice × Int :=
  match fuel with
  | 0 => (l, j)
  | f + 1 =>
    let i1 := partSkipI l a i j (f + 1)
    let j1 := partSkipJ l a i1 j (f + 1)
    if i1 > j1 then (l, j1)
    else partitionLoopGo (iswap l i1 j1) a (i1 + 1) (j1 - 1) f

/-- partition_func: one quicksort partition of data[a:b] around
data[pivot]; returns the new pivot position and whether the range was
already partitioned. -/
def partitionGo (l0 : List Advice) (a b pivot : Int) (fuel : Nat) :
    List Advice × Int × Bool :=
  let l := iswap l0 a pivot
  let i := a + 1
  let j := b - 1
  let i1 := partSkipI l a i j fuel
  let j1 := partSkipJ l a i1 j fuel
  if i1 > j1 then (iswap l j1 a, j1, true)
  else
    let l2 := iswap l i1 j1
    let (l3, j3) := partitionLoopGo l2 a (i1 + 1) (j1 - 1) fuel
    (iswap l3 j3 a, j3, false)

/-- partitionEqual_func skip loop `for i <= j && !data.Less(a, i) { i++ }`. -/
def peSkipI (l : List Advice) (a i j : Int) (fuel : Nat) : Int :=
  match fuel with
  | 0 => i
  | f + 1 => if i ≤ j ∧ ¬ iless l a i then peSkipI l a (i + 1) j f else i

/-- partitionEqual_func skip loop `for i <= j && data.Less(a, j) { j-- }`. -/
def peSkipJ (l : List Advice) (a i j : Int) (fuel : Nat) : Int :=
  match fuel with
  | 0 => j
  | f + 1 => if i ≤ j ∧ iless l a j then peSkipJ l a i (j - 1) f else j

/-- Main loop of partitionEqual_func. -/
def partitionEqualLoop (l : List Advice) (a i j : Int) (fuel : Nat) : List Advice × Int :=
  match fuel with
  | 0 => (l, i)
  | f + 1 =>
    let i1 := peSkipI l a i j (f + 1)
    let j1 := peSkipJ l a i1 j (f + 1)
    if i1 > j1 then (l, i1)
    else partitionEqualLoop (iswap l i1 j1) a (i1 + 1) (j1 - 1) f

/-- partitionEqual_func partitions data[a:b] into elements equal to
data[pivot] followed by elements greater than data[pivot]. -/
def partitionEqualGo (l0 : List Advice) (a b pivot : Int) (fuel : Nat) :
    List Advice × Int :=
  let l := iswap l0 a pivot
  partitionEqualLoop l a (a + 1) (b - 1) fuel

/-- partialInsertionSort_func advance loop
`for i < b && !data.Less(i, i-1) { i++ }`. -/
def sisAdvance (l : List Advice) (i b : Int) (fuel : Nat) : Int :=
  match fuel with
  | 0 => i
  | f + 1 => if i < b ∧ ¬ iless l i (i - 1) then sisAdvance l (i + 1) b f else i

/-- partialInsertionSort_func left shift
`for j := i - 1; j >= 1; j-- { if !Less(j, j-1) break; Swap(j, j-1) }`. -/
def sisShiftL (l : List Advice) (j : Int) (fuel : Nat) : List Advice :=
  match fuel with
  | 0 => l
  | f + 1 =>
    if j ≥ 1 then
      if ¬ iless l j (j - 1) then l
      else sisShiftL (iswap l j (j - 1)) (j - 1) f
    else l

/-- partialInsertionSort_func right shift
`for j := i + 1; j < b; j++ { if !Less(j, j-1) break; Swap(j, j-1) }`. -/
def sisShiftR (l : List Advice) (j b : Int) (fuel : Nat) : List Advice :=
  match fuel with
  | 0 => l
  | f + 1 =>
    if j < b then
      if ¬ iless l j (j - 1) then l
      else sisShiftR (iswap l j (j - 1)) (j + 1) b f
    else l

/-- partialInsertionSort_func (maxSteps = 5, shortestShifting = 50):
partially sorts data[a:b]; returns the modified slice and whether it is
sorted at the end. -/
def shortInsLoop (l : List Advice) (a b i : Int) (steps : Nat) (fuel : Nat) :
    List Advice × Bool :=
  match steps with
  | 0 => (l, false)
  | s + 1 =>
    let i1 := sisAdvance l i b fuel
    if i1 = b then (l, true)
    else if b - a < 50 then (l, false)
    else
      let l1 := iswap l i1 (i1 - 1)
      let l2 := if i1 - a ≥ 2 then sisShiftL l1 (i1 - 1) fuel else l1
      let l3 := if b - i1 ≥ 2 then sisShiftR l2 (i1 + 1) b fuel else l2
      shortInsLoop l3 a b i1 s fuel

/-- The breakPatterns step at the top of a pdqsort_func iteration: runs
only after an unbalanced partitioning. -/
def pdqPrep (l : List Advice) (a b : Int) (wasBalanced : Bool) : List Advice :=
  if ¬ wasBalanced then breakPatternsGo l a b else l

/-- The pivot-choice step of pdqsort_func: on a decreasing hint the range
is reversed, the pivot mirrored and the hint flipped to increasing. -/
def pdqChoose (l : List Advice) (a b : Int) : List Advice × Int × SortedHint :=
  let (pivot0, hint0) := choosePivotGo l a b
  if hint0 = .decreasingHint then
    (reverseRangeGo l a (b - 1), (b - 1) - (pivot0 - a), SortedHint.increasingHint)
  else (l, pivot0, hint0)

/-- The likely-sorted check of pdqsort_func: partialInsertionSort runs
when the last partitioning was balanced and partitioned and the hint is
increasing. -/
def pdqMaybeShort (l : List Advice) (a b : Int) (wasBalanced wasPartitioned : Bool)
    (hint : SortedHint) (lf : Nat) : List Advice × Bool :=
  if wasBalanced ∧ wasPartitioned ∧ hint = .increasingHint then
    shortInsLoop l a b (a + 1) 5 lf
  else (l, false)

/-- pdqsort_func (maxInsertion = 12): the main loop; `fuel` bounds the
loop iterations and recursion depth. -/
def pdqsortLoop (l : List Advice) (a b limit : Int)
    (wasBalanced wasPartitioned : Bool) (fuel : Nat) : List Advice :=
  match fuel with
  | 0 => l
  | f + 1 =>
    let length := b - a
    let lf := length.toNat + 2
    if length ≤ 12 then insertionSortGo l a b
    else if limit = 0 then heapSortGo l a b lf
    else
      let l0 := pdqPrep l a b wasBalanced
      let limit0 := if ¬ wasBalanced then limit - 1 else limit
      let (l1, pivot1, hint1) := pdqChoose l0 a b
      let (l2, sorted) := pdqMaybeShort l1 a b wasBalanced wasPartitioned hint1 lf
      if sorted then l2
      else if a > 0 ∧ ¬ iless l2 (a - 1) pivot1 then
        let (l3, mid) := partitionEqualGo l2 a b pivot1 lf
        pdqsortLoop l3 mid b limit0 wasBalanced wasPartitioned f
      else
        let (l3, mid, alreadyPartitioned) := partitionGo l2 a b pivot1 lf
        let leftLen := mid - a
        let rightLen := b - mid
        let balanced := min leftLen rightLen ≥ length / 8
        if leftLen < rightLen then
          let l4 := pdqsortLoop l3 a mid limit0 true true f
          pdqsortLoop l4 (mid + 1) b limit0 balanced alreadyPartitioned f
        else
          let l4 := pdqsortLoop l3 (mid + 1) b limit0 true true f
          pdqsortLoop l4 a mid limit0 balanced alreadyPartitioned f

/-- sort.Slice on an advice slice with the descending-priority less
function: pdqsort with `limit = bits.Len(uint(length))`. -/
def sortSliceGo (l : List Advice) : List Advice :=
  pdqsortLoop l 0 l.length (goBitsLen l.length : Nat) true true (2 * l.length + 64)

/-! ### Phase execution, registry, engine and wrappers -/

/-- Observable events of a run: the engine invoking a phase execution,
a handler being invoked (tagged with the phase whose execution ran it),
and the target thunk being invoked. -/
inductive Ev where
  | phase (t : AdviceType)
  | handler (t : AdviceType) (id : Nat)
  | targetRun
deriving DecidableEq, Repr

/-- Run one handler: its writes, then its returned error. -/
def runHandler (c : Context) (a : Advice) : Context × Option GoErr :=
  (applyActs a.acts c, a.ret)

/-- The execution loop of executeAdviceList over the sorted snapshot:
before each handler the context's cancellation signal is checked
(`select` on Done), then the handler runs; a non-nil handler error stops
the loop and is returned. -/
def execList (ph : AdviceType) (c : Context) :
    List Advice → Context × List Ev × Option GoErr
  | [] => (c, [], none)
  | a :: rest =>
    if c.cancelled then (c, [], some .ctxCancelled)
    else
      match runHandler c a with
      | (c', some e) => (c', [.handler ph a.id], some e)
      | (c', none) =>
        let (c'', evs, r) := execList ph c' rest
        (c'', .handler ph a.id :: evs, r)

/-- executeAdviceList of src/unnamed/part_009: empty list returns nil
immediately, otherwise the snapshot is sorted with sort.Slice by
descending priority and executed in order.  `ph` tags the produced
events with the calling phase. -/
def executeAdviceList (ph : AdviceType) (c : Context) (adviceList : List Advice) :
    Context × List Ev × Option GoErr :=
  if adviceList.length = 0 then (c, [], none)
  else execList ph c (sortSliceGo adviceList)

/-- Registry of src/unnamed/part_000: map from function key to advice
chain, modelled as an association list. -/
structure Registry where
  entries : List (String × AdviceChain)
deriving DecidableEq, Repr

/-- NewRegistry. -/
def NewRegistry : Registry := { entries := [] }

/-- Registry.Register: empty name and duplicate name fail. -/
def Registry.Register (r : Registry) (name : String) : Registry × Option GoErr :=
  if name = "" then (r, some .emptyKey)
  else if (r.entries.lookup name).isSome then (r, some (.alreadyRegistered name))
  else ({ entries := r.entries ++ [(name, NewAdviceChain)] }, none)

/-- Registry.AddAdvice: empty name and unregistered name fail, otherwise
the advice is appended to the chain's phase bucket. -/
def Registry.AddAdvice (r : Registry) (funcKey : String) (advice : Advice) :
    Registry × Option GoErr :=
  if funcKey = "" then (r, some .emptyKey)
  else
    match r.entries.lookup funcKey with
    | none => (r, some (.notRegistered funcKey))
    | some ch =>
      ({ entries := r.entries.map fun p =>
          if p.1 = funcKey then (p.1, ch.Add advice) else p }, none)

/-- Registry.GetAdviceChain: empty name and unregistered name fail. -/
def Registry.GetAdviceChain (r : Registry) (funcKey : String) :
    Except GoErr AdviceChain :=
  if funcKey = "" then .error .emptyKey
  else
    match r.entries.lookup funcKey with
    | none => .error (.notRegistered funcKey)
    | some ch => .ok ch

/-- Registry.IsRegistered. -/
def Registry.IsRegistered (r : Registry) (name : String) : Bool :=
  (r.entries.lookup name).isSome

/-- Registry.Unregister: delete, a no-op when the key is absent. -/
def Registry.Unregister (r : Registry) (name : String) : Registry :=
  { entries := r.entries.filter fun p => p.1 ≠ name }

/-- Registry.Count. -/
def Registry.Count (r : Registry) : Nat :=
  r.entries.length

/-- Registry.GetAdviceCount: 0, not an error, when the key is absent. -/
def Registry.GetAdviceCount (r : Registry) (funcKey : String) : Nat :=
  match r.entries.lookup funcKey with
  | none => 0
  | some ch => ch.Count

/-- A target thunk, deep-embedded: the context writes it performs
(setting results and the error from the real function), then an optional
panic it raises. -/
structure Target where
  acts : List HAct
  panics : Option PanicVal
deriving DecidableEq, Repr

/-- Invoke the target thunk. -/
def runTarget (t : Target) (c : Context) : Context × Option PanicVal :=
  (applyActs t.acts c, t.panics)

/-- Everything a single engine invocation produces: the final context,
the event trace, and the panic propagated to the caller (none when the
call returns normally). -/
structure EngineResult where
  ctx : Context
  trace : List Ev
  panicked : Option PanicVal
deriving DecidableEq, Repr

/-- The normal-return epilogue: only the deferred After advice runs
(its error is discarded). -/
def finishNormal (chain : AdviceChain) (c : Context) (tr : List Ev) : EngineResult :=
  let (c', t, _) := executeAdviceList .After c chain.after
  { ctx := c', trace := tr ++ (.phase .After :: t), panicked := none }

/-- The unwind epilogue of executeWithAdviceContext: the deferred recover
stores the panic payload in the context, runs AfterThrowing, re-panics;
the other deferred call then runs After; the panic propagates. -/
def finishUnwind (chain : AdviceChain) (p : PanicVal) (c : Context) (tr : List Ev) :
    EngineResult :=
  let c1 := { c with panicValue := some p }
  let (c2, t2, _) := executeAdviceList .AfterThrowing c1 chain.afterThrowing
  let (c3, t3, _) := executeAdviceList .After c2 chain.after
  { ctx := c3,
    trace := tr ++ (.phase .AfterThrowing :: t2) ++ (.phase .After :: t3),
    panicked := some p }

/-- Target invocation and the subsequent AfterReturning decision of
executeWithAdviceContext. -/
def proceedTarget (chain : AdviceChain) (c : Context) (tr : List Ev)
    (targetFn : Target) : EngineResult :=
  let (c', p) := runTarget targetFn c
  let tr' := tr ++ [Ev.targetRun]
  match p with
  | some pv => finishUnwind chain pv c' tr'
  | none =>
    if c'.error = none ∧ ¬ c'.HasPanic then
      let (c'', t, _) := executeAdviceList .AfterReturning c' chain.afterReturning
      finishNormal chain c'' (tr' ++ (.phase .AfterReturning :: t))
    else finishNormal chain c' tr'

/-- executeWithAdviceContext of src/aspect/wrap.go: the five-phase
protocol.  An unregistered key takes the fast path (no advice, no
recover).  Before or Around errors are escalated to panics; the skip
flag set by Around bypasses the target. -/
def executeWithAdviceContext (reg : Registry) (functionName : String)
    (cancelled : Bool) (targetFn : Target) (args : List Int) : EngineResult :=
  match reg.GetAdviceChain functionName with
  | .error _ =>
    let c := NewContextWithContext cancelled functionName args
    let (c', p) := runTarget targetFn c
    { ctx := c', trace := [.targetRun], panicked := p }
  | .ok chain =>
    let c0 := NewContextWithContext cancelled functionName args
    let (c1, t1, r1) := executeAdviceList .Before c0 chain.before
    let trB := Ev.phase .Before :: t1
    match r1 with
    | some e => finishUnwind chain (.goError (.beforeAdviceFailed e)) c1 trB
    | none =>
      if chain.HasAround then
        let (c2, t2, r2) := executeAdviceList .Around c1 chain.around
        let trA := trB ++ (.phase .Around :: t2)
        match r2 with
        | some e => finishUnwind chain (.goError (.aroundAdviceFailed e)) c2 trA
        | none =>
          if c2.skipped then
            if c2.error = none ∧ ¬ c2.HasPanic then
              let (c3, t3, _) := executeAdviceList .AfterReturning c2 chain.afterReturning
              finishNormal chain c3 (trA ++ (.phase .AfterReturning :: t3))
            else finishNormal chain c2 trA
          else proceedTarget chain c2 trA targetFn
      else proceedTarget chain c1 trB targetFn

/-- executeWithAdvice: the background (non-cancellable) context variant. -/
def executeWithAdvice (reg : Registry) (functionName : String)
    (targetFn : Target) (args : List Int) : EngineResult :=
  executeWithAdviceContext reg functionName false targetFn args

/-- One call of the closure Wrap0R builds (result type modelled as Int,
whose Go zero value is 0): the thunk runs the function, stores its value
in the local `result` and in result slot 0; if Around skipped execution
and set a non-nil slot 0, that value is preferred.  When the engine
panics the wrapped call propagates the panic instead of returning. -/
def Wrap0R (reg : Registry) (funcKey : String) (cancelled : Bool) (fnRet : Int) :
    Except PanicVal (Int × EngineResult) :=
  let tgt : Target := { acts := [.hSetResult 0 (some fnRet)], panics := none }
  let er := executeWithAdviceContext reg funcKey cancelled tgt []
  match er.panicked with
  | some p => .error p
  | none =>
    let localRes : Int := if Ev.targetRun ∈ er.trace then fnRet else 0
    let res : Int :=
      if er.ctx.skipped ∧ er.ctx.results.length > 0 ∧ er.ctx.results.getD 0 none ≠ none
      then (er.ctx.results.getD 0 none).getD localRes
      else localRes
    .ok (res, er)

/-- One call of the closure Wrap0E builds: the thunk runs the function,
stores its error in the local `err` and in the context's error field;
after the engine returns, a non-nil context error overrides the local
one. -/
def Wrap0E (reg : Registry) (funcKey : String) (cancelled : Bool)
    (fnErr : Option GoErr) : Except PanicVal (Option GoErr × EngineResult) :=
  let tgt : Target := { acts := [.hSetError fnErr], panics := none }
  let er := executeWithAdviceContext reg funcKey cancelled tgt []
  match er.panicked with
  | some p => .error p
  | none =>
    let localErr : Option GoErr := if Ev.targetRun ∈ er.trace then fnErr else none
    let res : Option GoErr := if er.ctx.error ≠ none then er.ctx.error else localErr
    .ok (res, er)

/-! ### Specification-side definitions -/

/-- Insert an advice into a descending-priority sorted list, after every
element of greater-or-equal priority (the stable position). -/
def insertDesc (x : Advice) : List Advice → List Advice
  | [] => [x]
  | y :: ys => if x.priority > y.priority then x :: y :: ys else y :: insertDesc x ys

/-- The stable descending-priority sort the specification describes:
ties keep insertion order. -/
def stableSortDesc (l : List Advice) : List Advice :=
  l.foldl (fun acc x => insertDesc x acc) []

/-- An event belonging to the After phase. -/
def isAfterEv : Ev → Bool
  | .phase .After => true
  | .handler .After _ => true
  | _ => false

/-- A handler event of the After phase. -/
def isAfterHandlerEv : Ev → Bool
  | .handler .After _ => true
  | _ => false

/-- The After phase was invoked exactly once and nothing but its own
handlers followed it. -/
def afterIsLast (t : List Ev) : Bool :=
  match t.reverse.dropWhile isAfterHandlerEv with
  | .phase .After :: rest => rest.all fun e => ¬ isAfterEv e
  | _ => false

/-- A context write that touches neither the error nor the panic field. -/
def outcomeSafeAct : HAct → Bool
  | .hSetError _ => false
  | .hSetPanic _ => false
  | _ => true

/-- A handler that never writes the error or panic fields (used to state
that outcome observers do not disturb the outcome). -/
def keepsOutcome (a : Advice) : Bool :=
  a.acts.all outcomeSafeAct

/-- A context write that touches neither the skip flag nor result slot 0. -/
def slot0SafeAct : HAct → Bool
  | .hSetSkipped _ => false
  | .hSetResult i _ => decide (i ≠ 0)
  | _ => true

/-- A handler that never writes the skip flag nor result slot 0. -/
def keepsSlot0 (a : Advice) : Bool :=
  a.acts.all slot0SafeAct

/-- The outcome-phase contract of a single run: AfterReturning was
invoked exactly when the context ends with no error and no panic,
AfterThrowing was invoked exactly when a panic propagates, and the two
never both run. -/
def outcomeOk (er : EngineResult) : Prop :=
  ((Ev.phase .AfterReturning ∈ er.trace) ↔ (er.ctx.error = none ∧ er.ctx.HasPanic = false))
  ∧ ((Ev.phase .AfterThrowing ∈ er.trace) ↔ er.panicked ≠ none)
  ∧ ¬(Ev.phase .AfterReturning ∈ er.trace ∧ Ev.phase .AfterThrowing ∈ er.trace)

/-! ### Concrete instances used by witnesses and counterexamples -/

/-- An advice with no writes and no error. -/
def mkAdv (t : AdviceType) (pr : Int) (i : Nat) : Advice :=
  { type := t, priority := pr, id := i, acts := [], ret := none }

/-- A trivial target thunk. -/
def idleTarget : Target := { acts := [], panics := none }

/-- Thirteen Before advice, identities 0..12, all of priority 5 except
identity 6 of priority 1: above sort.Slice's insertion-sort cutoff. -/
def cex13 : List Advice :=
  (List.range 13).map fun i => mkAdv .Before (if i = 6 then 1 else 5) i

/-- A chain whose single Before advice fails and that observes the
AfterThrowing and After phases. -/
def beforeFailChain : AdviceChain :=
  { before := [{ type := .Before, priority := 0, id := 1, acts := [], ret := some (.user 1) }],
    after := [mkAdv .After 0 8],
    around := [],
    afterReturning := [mkAdv .AfterReturning 0 7],
    afterThrowing := [mkAdv .AfterThrowing 0 9] }

/-- Registry for the Before-failure run. -/
def beforeFailReg : Registry := { entries := [("F", beforeFailChain)] }

/-- A chain whose After advice clears the context's error field. -/
def clearErrChain : AdviceChain :=
  { before := [], after := [{ type := .After, priority := 0, id := 2, acts := [.hSetError none], ret := none }],
    around := [], afterReturning := [], afterThrowing := [] }

/-- Registry for the error-clearing run. -/
def clearErrReg : Registry := { entries := [("K", clearErrChain)] }

/-- A chain whose After advice replaces the context's error with user
error 9. -/
def replaceErrChain : AdviceChain :=
  { before := [],
    after := [{ type := .After, priority := 0, id := 2,
                acts := [.hSetError (some (.user 9))], ret := none }],
    around := [], afterReturning := [], afterThrowing := [] }

/-- Registry for the error-replacing run. -/
def replaceErrReg : Registry := { entries := [("M", replaceErrChain)] }

/-- Around advice that skips the target and caches value `v` in
result slot 0. -/
def skipAdv (pr : Int) (i : Nat) (v : Int) : Advice :=
  { type := .Around, priority := pr, id := i,
    acts := [.hSetSkipped true, .hSetResult 0 (some v)], ret := none }

/-- A chain with one skipping Around advice caching 42. -/
def skipChain : AdviceChain :=
  { before := [], after := [], around := [skipAdv 0 3 42],
    afterReturning := [], afterThrowing := [] }

/-- Registry for the skip run. -/
def skipReg : Registry := { entries := [("G", skipChain)] }

/-! ### Basic lemmas -/

/-- Deleting an absent key from an association list changes nothing. -/
theorem filter_ne_of_lookup_none {β : Type} (l : List (String × β)) (name : String)
    (h : l.lookup name = none) : l.filter (fun p => p.1 ≠ name) = l := by
  induction l with
  | nil => rfl
  | cons hd tl ih =>
    cases hd with
    | mk k v =>
      by_cases hk : name = k
      · subst hk
        simp [List.lookup] at h
      · have hbeq : (name == k) = false := by simp [hk]
        simp only [List.lookup, hbeq] at h
        rw [List.filter_cons_of_pos (by simpa using fun he => hk he.symm), ih h]

/-! ### C10 -/

/-- C10: for every Context and integer index, GetResult returns nil for a
negative or out-of-range index, SetResult with a negative index leaves the
Context unchanged, and SetResult with a non-negative index always succeeds:
the results list is grown to cover the index and the slot holds the written
value. -/
theorem C10_result_access (c : Context) (i : Int) (v : Option Int) :
    ((i < 0 ∨ (c.results.length : Int) ≤ i) → c.GetResult i = none)
    ∧ (i < 0 → c.SetResult i v = c)
    ∧ (0 ≤ i → (c.SetResult i v).results.getD i.toNat none = v
        ∧ (c.SetResult i v).results.length = max c.results.length (i.toNat + 1)) := by
  refine ⟨?_, ?_, ?_⟩
  · intro h
    simp only [Context.GetResult]
    rw [if_pos h]
  · intro h
    simp only [Context.SetResult]
    rw [if_pos h]
  · intro h
    have hnot : ¬ i < 0 := not_lt.mpr h
    have hlen : (extendResults c.results i.toNat).length = max c.results.length (i.toNat + 1) := by
      simp [extendResults]
      omega
    have hlt : i.toNat < (extendResults c.results i.toNat).length := by
      rw [hlen]; omega
    constructor
    · simp only [Context.SetResult, if_neg hnot]
      rw [List.getD_eq_getElem?_getD, List.getElem?_set_eq_of_lt _ hlt]
      rfl
    · simp only [Context.SetResult, if_neg hnot]
      rw [List.length_set, hlen]

/-- Witness for C10 at concrete inputs. -/
theorem C10_result_access_witness :
    (((3 : Int) < 0 ∨ ((NewContextWithContext false "f" []).results.length : Int) ≤ 3) →
        (NewContextWithContext false "f" []).GetResult 3 = none)
    ∧ (((3 : Int) < 0) → (NewContextWithContext false "f" []).SetResult 3 (some 7) = NewContextWithContext false "f" [])
    ∧ ((0 ≤ (3 : Int)) →
        ((NewContextWithContext false "f" []).SetResult 3 (some 7)).results.getD (3 : Int).toNat none = some 7
        ∧ ((NewContextWithContext false "f" []).SetResult 3 (some 7)).results.length
          = max (NewContextWithContext false "f" []).results.length ((3 : Int).toNat + 1)) :=
  C10_result_access (NewContextWithContext false "f" []) 3 (some 7)

/-! ### C9 -/

/-- C9: registering a present (non-empty) key fails with a duplicate error
and leaves the registry unchanged; registering the empty key fails with the
invalid-key error; AddAdvice and GetAdviceChain on an absent non-empty key
fail with the not-registered error; Unregister on an absent key is a no-op;
and GetAdviceCount on an absent key returns 0 rather than an error. -/
theorem C9_registry_errors (r : Registry) (k : String) (adv : Advice) (ch : AdviceChain) :
    (r.entries.lookup k = some ch → k ≠ "" → r.Register k = (r, some (.alreadyRegistered k)))
    ∧ (r.Register "" = (r, some .emptyKey))
    ∧ (r.entries.lookup k = none → k ≠ "" →
        r.AddAdvice k adv = (r, some (.notRegistered k))
        ∧ r.GetAdviceChain k = .error (.notRegistered k))
    ∧ (r.entries.lookup k = none →
        r.Unregister k = r ∧ r.GetAdviceCount k = 0) := by
  refine ⟨?_, ?_, ?_, ?_⟩
  · intro hl hk
    simp [Registry.Register, hk, hl]
  · simp [Registry.Register]
  · intro hl hk
    constructor
    · simp [Registry.AddAdvice, hk, hl]
    · simp [Registry.GetAdviceChain, hk, hl]
  · intro hl
    constructor
    · simp only [Registry.Unregister]
      rw [filter_ne_of_lookup_none r.entries k hl]
    · simp [Registry.GetAdviceCount, hl]

/-- Witness for C9: a present key and an absent key on a one-entry registry. -/
theorem C9_registry_errors_witness :
    ({ entries := [("F", NewAdviceChain)] } : Registry).Register "F"
        = ({ entries := [("F", NewAdviceChain)] }, some (.alreadyRegistered "F"))
    ∧ ({ entries := [("F", NewAdviceChain)] } : Registry).Register "" = ({ entries := [("F", NewAdviceChain)] }, some .emptyKey)
    ∧ ({ entries := [("F", NewAdviceChain)] } : Registry).AddAdvice "G" (mkAdv .Before 0 0)
        = ({ entries := [("F", NewAdviceChain)] }, some (.notRegistered "G"))
    ∧ ({ entries := [("F", NewAdviceChain)] } : Registry).GetAdviceChain "G" = .error (.notRegistered "G")
    ∧ ({ entries := [("F", NewAdviceChain)] } : Registry).Unregister "G" = { entries := [("F", NewAdviceChain)] }
    ∧ ({ entries := [("F", NewAdviceChain)] } : Registry).GetAdviceCount "G" = 0 := by
  have h1 := C9_registry_errors { entries := [("F", NewAdviceChain)] } "F" (mkAdv .Before 0 0) NewAdviceChain
  have h2 := C9_registry_errors { entries := [("F", NewAdviceChain)] } "G" (mkAdv .Before 0 0) NewAdviceChain
  refine ⟨h1.1 (by rfl) (by decide), h1.2.1, ?_, ?_, ?_, ?_⟩
  · exact (h2.2.2.1 (by rfl) (by decide)).1
  · exact (h2.2.2.1 (by rfl) (by decide)).2
  · exact (h2.2.2.2 (by rfl)).1
  · exact (h2.2.2.2 (by rfl)).2

/-! ### C8 -/

/-- C8: invoking through the engine with a key that has no registry entry
takes the fast path: a fresh Context is created, the target thunk runs with
no advice phases, no error or panic is raised, and the populated Context is
returned. -/
theorem C8_fast_path (reg : Registry) (key : String) (cancelled : Bool)
    (tgt : Target) (args : List Int) (err : GoErr)
    (hkey : reg.GetAdviceChain key = .error err) (hp : tgt.panics = none) :
    executeWithAdviceContext reg key cancelled tgt args
      = { ctx := applyActs tgt.acts (NewContextWithContext cancelled key args),
          trace := [.targetRun], panicked := none } := by
  simp [executeWithAdviceContext, hkey, runTarget, hp]

/-- Witness for C8: an empty registry and a writing thunk. -/
theorem C8_fast_path_witness :
    executeWithAdviceContext NewRegistry "Z" false
        { acts := [.hSetResult 0 (some 5)], panics := none } []
      = { ctx := applyActs [.hSetResult 0 (some 5)] (NewContextWithContext false "Z" []),
          trace := [.targetRun], panicked := none } :=
  C8_fast_path NewRegistry "Z" false { acts := [.hSetResult 0 (some 5)], panics := none } []
    (.notRegistered "Z") (by rfl) (by rfl)

/-! ### Phase-execution lemmas -/

/-- Handler writes never touch the cancellation signal. -/
theorem cancelled_applyAct (c : Context) (act : HAct) :
    (applyAct c act).cancelled = c.cancelled := by
  cases act with
  | hSetResult i v =>
    simp only [applyAct, Context.SetResult]
    split <;> rfl
  | hSetError e => rfl
  | hSetSkipped b => rfl
  | hSetMeta k v => rfl
  | hSetPanic p => rfl

/-- Handler bodies never touch the cancellation signal. -/
theorem cancelled_applyActs (acts : List HAct) (c : Context) :
    (applyActs acts c).cancelled = c.cancelled := by
  induction acts generalizing c with
  | nil => rfl
  | cons a rest ih =>
    simp only [applyActs, List.foldl_cons] at *
    rw [ih (applyAct c a), cancelled_applyAct]

/-- Every event produced by the execution loop is a handler event of the
executing phase. -/
theorem execList_events (ph : AdviceType) (l : List Advice) :
    ∀ (c : Context) (ev : Ev), ev ∈ (execList ph c l).2.1 → ∃ i, ev = .handler ph i := by
  induction l with
  | nil => intro c ev h; simp [execList] at h
  | cons a rest ih =>
    intro c ev h
    simp only [execList] at h
    by_cases hc : c.cancelled
    · rw [if_pos hc] at h; simp at h
    · rw [if_neg hc] at h
      rcases hr : runHandler c a with ⟨c', r⟩
      rw [hr] at h
      cases r with
      | some e => simp at h; exact ⟨a.id, h⟩
      | none =>
        simp only [] at h
        rcases List.mem_cons.mp h with h' | h'
        · exact ⟨a.id, h'⟩
        · exact ih c' ev h'

/-- Every event produced by a phase execution is a handler event of that
phase. -/
theorem executeAdviceList_events (ph : AdviceType) (c : Context) (l : List Advice)
    (ev : Ev) (h : ev ∈ (executeAdviceList ph c l).2.1) : ∃ i, ev = .handler ph i := by
  simp only [executeAdviceList] at h
  split at h
  · simp at h
  · exact execList_events ph (sortSliceGo l) c ev h

/-- The execution loop on handlers that all succeed, under a live
context: every handler runs, in order, and no error is returned. -/
theorem execList_ok (ph : AdviceType) (l : List Advice) :
    ∀ (c : Context), c.cancelled = false → (∀ x ∈ l, x.ret = none) →
    (execList ph c l).2.1 = l.map (fun x => Ev.handler ph x.id)
    ∧ (execList ph c l).2.2 = none := by
  induction l with
  | nil => intro c hc hr; simp [execList]
  | cons a rest ih =>
    intro c hc hr
    have ha : a.ret = none := hr a (by simp)
    have hrun : runHandler c a = (applyActs a.acts c, none) := by
      simp [runHandler, ha]
    have hc' : (applyActs a.acts c).cancelled = false := by
      rw [cancelled_applyActs, hc]
    have ihr := ih (applyActs a.acts c) hc' (fun x hx => hr x (by simp [hx]))
    simp only [execList, hc, Bool.false_eq_true, if_false, hrun]
    simp [ihr.1, ihr.2]

/-- The execution loop stops at the first failing handler: the preceding
handlers run, the failing one runs, later ones do not, and its error is
returned. -/
theorem execList_stop (ph : AdviceType) (s₁ : List Advice) :
    ∀ (c : Context) (a : Advice) (s₂ : List Advice) (e : GoErr),
    c.cancelled = false → (∀ x ∈ s₁, x.ret = none) → a.ret = some e →
    (execList ph c (s₁ ++ a :: s₂)).2.1 = (s₁ ++ [a]).map (fun x => Ev.handler ph x.id)
    ∧ (execList ph c (s₁ ++ a :: s₂)).2.2 = some e := by
  induction s₁ with
  | nil =>
    intro c a s₂ e hc h1 ha
    have hrun : runHandler c a = (applyActs a.acts c, some e) := by
      simp [runHandler, ha]
    simp [execList, hc, hrun]
  | cons x rest ih =>
    intro c a s₂ e hc h1 ha
    have hx : x.ret = none := h1 x (by simp)
    have hrun : runHandler c x = (applyActs x.acts c, none) := by
      simp [runHandler, hx]
    have hc' : (applyActs x.acts c).cancelled = false := by
      rw [cancelled_applyActs, hc]
    have ihr := ih (applyActs x.acts c) a s₂ e hc' (fun y hy => h1 y (by simp [hy])) ha
    simp only [List.cons_append, execList, hc, Bool.false_eq_true, if_false, hrun]
    simp [ihr.1, ihr.2]

/-! ### C7 -/

/-- C7: in any phase execution over a live (non-cancelled) Context, if the
first failing handler of the sorted snapshot returns error `e`, then every
handler sorted before it runs, the failing handler runs, no later handler
runs, and `e` is returned to the engine. -/
theorem C7_phase_stops_on_error (ph : AdviceType) (c : Context) (l s₁ s₂ : List Advice)
    (a : Advice) (e : GoErr)
    (hc : c.cancelled = false)
    (hl : l ≠ [])
    (hs : sortSliceGo l = s₁ ++ a :: s₂)
    (h1 : ∀ x ∈ s₁, x.ret = none)
    (ha : a.ret = some e) :
    (executeAdviceList ph c l).2.1 = (s₁ ++ [a]).map (fun x => Ev.handler ph x.id)
    ∧ (executeAdviceList ph c l).2.2 = some e := by
  have hlen : ¬ l.length = 0 := by
    simpa [List.length_eq_zero] using hl
  simp only [executeAdviceList, hlen, if_false, hs]
  exact execList_stop ph s₁ c a s₂ e hc h1 ha

/-- Witness for C7: three Before advice of priorities 9, 5, 1, the middle
one failing; the last never runs. -/
theorem C7_phase_stops_on_error_witness :
    (executeAdviceList .Before (NewContextWithContext false "F" [])
        [mkAdv .Before 1 3,
         { type := .Before, priority := 5, id := 2, acts := [], ret := some (.user 4) },
         mkAdv .Before 9 1]).2.1
      = [Ev.handler .Before 1, Ev.handler .Before 2]
    ∧ (executeAdviceList .Before (NewContextWithContext false "F" [])
        [mkAdv .Before 1 3,
         { type := .Before, priority := 5, id := 2, acts := [], ret := some (.user 4) },
         mkAdv .Before 9 1]).2.2 = some (.user 4) := by
  have h := C7_phase_stops_on_error .Before (NewContextWithContext false "F" [])
    [mkAdv .Before 1 3,
     { type := .Before, priority := 5, id := 2, acts := [], ret := some (.user 4) },
     mkAdv .Before 9 1]
    [mkAdv .Before 9 1]
    [mkAdv .Before 1 3]
    { type := .Before, priority := 5, id := 2, acts := [], ret := some (.user 4) }
    (.user 4) (by rfl) (by decide) (by decide) (by decide) (by rfl)
  exact ⟨h.1, h.2⟩

/-! ### After-phase placement lemmas -/

/-- Dropping a satisfying block before a list drops nothing more. -/
theorem dropWhile_append_of_all {p : Ev → Bool} (xs ys : List Ev)
    (h : ∀ x ∈ xs, p x = true) :
    (xs ++ ys).dropWhile p = ys.dropWhile p := by
  induction xs with
  | nil => rfl
  | cons x rest ih =>
    have hx : p x = true := h x (by simp)
    simp only [List.cons_append, List.dropWhile_cons, hx, if_true]
    exact ih fun y hy => h y (by simp [hy])

/-- A trace consisting of a block without After events, the After phase
marker, and After handler events, passes the After-is-last check. -/
theorem afterIsLast_shape (pre t3 : List Ev)
    (hpre : ∀ e ∈ pre, isAfterEv e = false)
    (ht3 : ∀ e ∈ t3, ∃ i, e = Ev.handler .After i) :
    afterIsLast (pre ++ Ev.phase .After :: t3) = true := by
  have hrev : (pre ++ Ev.phase .After :: t3).reverse
      = t3.reverse ++ Ev.phase .After :: pre.reverse := by
    simp
  have hall : ∀ x ∈ t3.reverse, isAfterHandlerEv x = true := by
    intro x hx
    rcases ht3 x (List.mem_reverse.mp hx) with ⟨i, hi⟩
    simp [hi, isAfterHandlerEv]
  simp only [afterIsLast, hrev]
  rw [dropWhile_append_of_all t3.reverse _ hall]
  simp only [List.dropWhile_cons]
  have : isAfterHandlerEv (Ev.phase .After) = false := rfl
  simp only [isAfterHandlerEv] at *
  rw [if_neg (by simp)]
  simp only [List.all_eq_true]
  intro e he
  have := hpre e (List.mem_reverse.mp he)
  simp [this]

/-- Phase markers of phases other than After are not After events. -/
theorem isAfterEv_phase_ne (t : AdviceType) (h : t ≠ .After) :
    isAfterEv (Ev.phase t) = false := by
  cases t <;> simp [isAfterEv] at h ⊢

/-- Handler events of phases other than After are not After events. -/
theorem isAfterEv_handler_ne (t : AdviceType) (i : Nat) (h : t ≠ .After) :
    isAfterEv (Ev.handler t i) = false := by
  cases t <;> simp [isAfterEv] at h ⊢

/-- Events of a non-After phase execution are not After events. -/
theorem noAfter_executeAdviceList (ph : AdviceType) (c : Context) (l : List Advice)
    (h : ph ≠ .After) :
    ∀ e ∈ (executeAdviceList ph c l).2.1, isAfterEv e = false := by
  intro e he
  rcases executeAdviceList_events ph c l e he with ⟨i, hi⟩
  rw [hi]
  exact isAfterEv_handler_ne ph i h

/-- The unwind epilogue places the After phase last. -/
theorem finishUnwind_afterIsLast (chain : AdviceChain) (p : PanicVal) (c : Context)
    (tr : List Ev) (htr : ∀ e ∈ tr, isAfterEv e = false) :
    afterIsLast (finishUnwind chain p c tr).trace = true := by
  simp only [finishUnwind]
  rcases h2 : executeAdviceList .AfterThrowing { c with panicValue := some p } chain.afterThrowing
    with ⟨c2, t2, r2⟩
  rcases h3 : executeAdviceList .After c2 chain.after with ⟨c3, t3, r3⟩
  simp only [h2, h3]
  refine afterIsLast_shape (tr ++ (Ev.phase .AfterThrowing :: t2)) t3 ?_ ?_
  · intro e he
    rcases List.mem_append.mp he with h | h
    · exact htr e h
    · rcases List.mem_cons.mp h with h | h
      · rw [h]; exact isAfterEv_phase_ne _ (by simp)
      · have := noAfter_executeAdviceList .AfterThrowing { c with panicValue := some p }
          chain.afterThrowing (by simp)
        rw [h2] at this
        exact this e h
  · intro e he
    have := executeAdviceList_events .After c2 chain.after e (by rw [h3]; exact he)
    exact this

/-- The normal epilogue places the After phase last. -/
theorem finishNormal_afterIsLast (chain : AdviceChain) (c : Context)
    (tr : List Ev) (htr : ∀ e ∈ tr, isAfterEv e = false) :
    afterIsLast (finishNormal chain c tr).trace = true := by
  simp only [finishNormal]
  rcases h3 : executeAdviceList .After c chain.after with ⟨c3, t3, r3⟩
  simp only [h3]
  refine afterIsLast_shape tr t3 htr ?_
  intro e he
  have := executeAdviceList_events .After c chain.after e (by rw [h3]; exact he)
  exact this

/-- The target step places the After phase last when its incoming trace
has no After events. -/
theorem proceedTarget_afterIsLast (chain : AdviceChain) (c : Context) (tr : List Ev)
    (tgt : Target) (htr : ∀ e ∈ tr, isAfterEv e = false) :
    afterIsLast (proceedTarget chain c tr tgt).trace = true := by
  simp only [proceedTarget, runTarget]
  have htr' : ∀ e ∈ tr ++ [Ev.targetRun], isAfterEv e = false := by
    intro e he
    rcases List.mem_append.mp he with h | h
    · exact htr e h
    · simp at h; rw [h]; rfl
  cases hp : tgt.panics with
  | some pv =>
    simp only []
    exact finishUnwind_afterIsLast chain pv _ _ htr'
  | none =>
    simp only []
    split
    · rcases hAR : executeAdviceList .AfterReturning (applyActs tgt.acts c)
        chain.afterReturning with ⟨cr, tr2, rr⟩
      simp only [hAR]
      refine finishNormal_afterIsLast chain cr _ ?_
      intro e he
      rcases List.mem_append.mp he with h | h
      · exact htr' e h
      · rcases List.mem_cons.mp h with h | h
        · rw [h]; exact isAfterEv_phase_ne _ (by simp)
        · have := noAfter_executeAdviceList .AfterReturning (applyActs tgt.acts c)
            chain.afterReturning (by simp)
          rw [hAR] at this
          exact this e h
    · exact finishNormal_afterIsLast chain _ _ htr'

/-! ### C3 -/

/-- C3: for every invocation of a registered function the After phase is
invoked exactly once and as the very last step of the run, on every
outcome: normal return, an error in the Context, a target panic, or a
Before/Around advice error. -/
theorem C3_after_always_last (reg : Registry) (key : String) (cancelled : Bool)
    (tgt : Target) (args : List Int) (chain : AdviceChain)
    (hch : reg.GetAdviceChain key = .ok chain) :
    afterIsLast (executeWithAdviceContext reg key cancelled tgt args).trace = true := by
  simp only [executeWithAdviceContext, hch]
  rcases h1 : executeAdviceList .Before (NewContextWithContext cancelled key args)
    chain.before with ⟨c1, t1, r1⟩
  have ht1 : ∀ e ∈ Ev.phase .Before :: t1, isAfterEv e = false := by
    intro e he
    rcases List.mem_cons.mp he with h | h
    · rw [h]; exact isAfterEv_phase_ne _ (by simp)
    · have := noAfter_executeAdviceList .Before (NewContextWithContext cancelled key args)
        chain.before (by simp)
      rw [h1] at this
      exact this e h
  cases r1 with
  | some e => exact finishUnwind_afterIsLast chain _ c1 _ ht1
  | none =>
    simp only []
    split
    · rcases h2 : executeAdviceList .Around c1 chain.around with ⟨c2, t2, r2⟩
      have ht2 : ∀ e ∈ (Ev.phase .Before :: t1) ++ (Ev.phase .Around :: t2),
          isAfterEv e = false := by
        intro e he
        rcases List.mem_append.mp he with h | h
        · exact ht1 e h
        · rcases List.mem_cons.mp h with h | h
          · rw [h]; exact isAfterEv_phase_ne _ (by simp)
          · have := noAfter_executeAdviceList .Around c1 chain.around (by simp)
            rw [h2] at this
            exact this e h
      cases r2 with
      | some e => exact finishUnwind_afterIsLast chain _ c2 _ ht2
      | none =>
        simp only []
        split
        · split
          · rcases h3 : executeAdviceList .AfterReturning c2 chain.afterReturning
              with ⟨c3, t3, r3⟩
            simp only [h3]
            refine finishNormal_afterIsLast chain c3 _ ?_
            intro e he
            rcases List.mem_append.mp he with h | h
            · exact ht2 e h
            · rcases List.mem_cons.mp h with h | h
              · rw [h]; exact isAfterEv_phase_ne _ (by simp)
              · have := noAfter_executeAdviceList .AfterReturning c2
                  chain.afterReturning (by simp)
                rw [h3] at this
                exact this e h
          · exact finishNormal_afterIsLast chain c2 _ ht2
        · exact proceedTarget_afterIsLast chain c2 _ tgt ht2
    · exact proceedTarget_afterIsLast chain c1 _ tgt ht1

/-- Witness for C3: a registered chain observing every phase, on a run
whose target panics. -/
theorem C3_after_always_last_witness :
    afterIsLast (executeWithAdviceContext beforeFailReg "F" false idleTarget []).trace = true :=
  C3_after_always_last beforeFailReg "F" false idleTarget [] beforeFailChain (by rfl)

/-! ### C1 -/

/-- Membership in the unwind epilogue's trace: an event is from the
incoming trace, is one of the AfterThrowing/After phase markers, or is a
handler event of those phases. -/
theorem mem_finishUnwind_trace (chain : AdviceChain) (p : PanicVal) (c : Context)
    (tr : List Ev) (ev : Ev) (h : ev ∈ (finishUnwind chain p c tr).trace) :
    ev ∈ tr ∨ ev = .phase .AfterThrowing ∨ (∃ i, ev = .handler .AfterThrowing i)
      ∨ ev = .phase .After ∨ (∃ i, ev = .handler .After i) := by
  simp only [finishUnwind] at h
  rcases h2 : executeAdviceList .AfterThrowing { c with panicValue := some p }
    chain.afterThrowing with ⟨c2, t2, r2⟩
  rw [h2] at h
  rcases h3 : executeAdviceList .After c2 chain.after with ⟨c3, t3, r3⟩
  rw [h3] at h
  simp only [] at h
  rcases List.mem_append.mp h with h | h
  · rcases List.mem_append.mp h with h | h
    · exact Or.inl h
    · rcases List.mem_cons.mp h with h | h
      · exact Or.inr (Or.inl h)
      · have := executeAdviceList_events .AfterThrowing { c with panicValue := some p }
          chain.afterThrowing ev (by rw [h2]; exact h)
        exact Or.inr (Or.inr (Or.inl this))
  · rcases List.mem_cons.mp h with h | h
    · exact Or.inr (Or.inr (Or.inr (Or.inl h)))
    · have := executeAdviceList_events .After c2 chain.after ev (by rw [h3]; exact h)
      exact Or.inr (Or.inr (Or.inr (Or.inr this)))

/-- The unwind epilogue propagates the panic it is given. -/
theorem finishUnwind_panicked (chain : AdviceChain) (p : PanicVal) (c : Context)
    (tr : List Ev) : (finishUnwind chain p c tr).panicked = some p := by
  simp only [finishUnwind]

/-- The unwind epilogue always invokes the AfterThrowing phase. -/
theorem finishUnwind_throwing_ran (chain : AdviceChain) (p : PanicVal) (c : Context)
    (tr : List Ev) : Ev.phase .AfterThrowing ∈ (finishUnwind chain p c tr).trace := by
  simp only [finishUnwind]
  rcases h2 : executeAdviceList .AfterThrowing { c with panicValue := some p }
    chain.afterThrowing with ⟨c2, t2, r2⟩
  rcases h3 : executeAdviceList .After c2 chain.after with ⟨c3, t3, r3⟩
  simp [h2, h3]

/-- C1 as stated is false on the code: when a Before advice returns an
error the engine escalates it to a panic and the deferred recover then
runs the AfterThrowing phase before re-panicking, so AfterThrowing does
run.  Concretely: one Before advice fails with user error 1; the run
propagates the wrapped error as a panic and the AfterThrowing handler 9
executes. -/
theorem C1_counterexample :
    (executeWithAdviceContext beforeFailReg "F" false idleTarget []).panicked
      = some (.goError (.beforeAdviceFailed (.user 1)))
    ∧ Ev.handler .AfterThrowing 9
        ∈ (executeWithAdviceContext beforeFailReg "F" false idleTarget []).trace := by
  decide

/-- C1 (amended): when the Before phase of a registered function returns a
non-nil error, the engine escalates it to a panic carrying the wrapped
error: the target thunk does not run, the AfterReturning phase does not
run, the AfterThrowing phase DOES run (with the wrapped error as the panic
payload), and the After phase still runs, as the last step. -/
theorem C1_before_error_escalates (reg : Registry) (key : String) (cancelled : Bool)
    (tgt : Target) (args : List Int) (chain : AdviceChain) (e : GoErr)
    (hch : reg.GetAdviceChain key = .ok chain)
    (hb : (executeAdviceList .Before (NewContextWithContext cancelled key args)
        chain.before).2.2 = some e) :
    (executeWithAdviceContext reg key cancelled tgt args).panicked
      = some (.goError (.beforeAdviceFailed e))
    ∧ Ev.targetRun ∉ (executeWithAdviceContext reg key cancelled tgt args).trace
    ∧ Ev.phase .AfterReturning ∉ (executeWithAdviceContext reg key cancelled tgt args).trace
    ∧ Ev.phase .AfterThrowing ∈ (executeWithAdviceContext reg key cancelled tgt args).trace
    ∧ afterIsLast (executeWithAdviceContext reg key cancelled tgt args).trace = true := by
  rcases h1 : executeAdviceList .Before (NewContextWithContext cancelled key args)
    chain.before with ⟨c1, t1, r1⟩
  have hr1 : r1 = some e := by rw [h1] at hb; exact hb
  have heng : executeWithAdviceContext reg key cancelled tgt args
      = finishUnwind chain (.goError (.beforeAdviceFailed e)) c1 (Ev.phase .Before :: t1) := by
    simp only [executeWithAdviceContext, hch, h1, hr1]
  have htr1 : ∀ ev ∈ Ev.phase .Before :: t1,
      ev ≠ Ev.targetRun ∧ ev ≠ Ev.phase .AfterReturning ∧ isAfterEv ev = false := by
    intro ev hev
    rcases List.mem_cons.mp hev with h | h
    · subst h; exact ⟨by simp, by simp, rfl⟩
    · rcases (by
        have := execList_events .Before (sortSliceGo chain.before)
        have h' := executeAdviceList_events .Before (NewContextWithContext cancelled key args)
          chain.before ev (by rw [h1]; exact h)
        exact h' : ∃ i, ev = .handler .Before i) with ⟨i, hi⟩
      subst hi
      exact ⟨by simp, by simp, rfl⟩
  rw [heng]
  refine ⟨finishUnwind_panicked _ _ _ _, ?_, ?_, finishUnwind_throwing_ran _ _ _ _,
    finishUnwind_afterIsLast _ _ _ _ (fun ev hev => (htr1 ev hev).2.2)⟩
  · intro hmem
    rcases mem_finishUnwind_trace _ _ _ _ _ hmem with h | h | ⟨i, h⟩ | h | ⟨i, h⟩
    · exact absurd rfl (htr1 _ h).1
    all_goals simp at h
  · intro hmem
    rcases mem_finishUnwind_trace _ _ _ _ _ hmem with h | h | ⟨i, h⟩ | h | ⟨i, h⟩
    · exact absurd rfl (htr1 _ h).2.1
    all_goals simp at h

/-- Witness for C1's amended theorem at the concrete Before-failure chain. -/
theorem C1_before_error_escalates_witness :
    (executeWithAdviceContext beforeFailReg "F" false idleTarget []).panicked
      = some (.goError (.beforeAdviceFailed (.user 1)))
    ∧ Ev.targetRun ∉ (executeWithAdviceContext beforeFailReg "F" false idleTarget []).trace
    ∧ Ev.phase .AfterReturning ∉ (executeWithAdviceContext beforeFailReg "F" false idleTarget []).trace
    ∧ Ev.phase .AfterThrowing ∈ (executeWithAdviceContext beforeFailReg "F" false idleTarget []).trace
    ∧ afterIsLast (executeWithAdviceContext beforeFailReg "F" false idleTarget []).trace = true :=
  C1_before_error_escalates beforeFailReg "F" false idleTarget [] beforeFailChain
    (.user 1) (by rfl) (by decide)

/-! ### The sort only permutes: membership preservation -/

/-- In-range reads are members of the list. -/
theorem iget_mem (l : List Advice) (i : Int) (h : 0 ≤ i ∧ i.toNat < l.length) :
    iget l i ∈ l := by
  simp only [iget, dif_pos h]
  exact l.get_mem _ _

/-- Swaps only permute. -/
theorem mem_iswap (l : List Advice) (i j : Int) (x : Advice)
    (h : x ∈ iswap l i j) : x ∈ l := by
  simp only [iswap] at h
  split at h
  · rename_i hg
    rcases List.mem_or_eq_of_mem_set h with h' | h'
    · rcases List.mem_or_eq_of_mem_set h' with h'' | h''
      · exact h''
      · rw [h'']; exact iget_mem l j ⟨hg.2.1, hg.2.2.2⟩
    · rw [h']; exact iget_mem l i ⟨hg.1, hg.2.2.1⟩
  · exact h

/-- Membership preservation for the insertion-sort inner loop. -/
theorem mem_insInnerF (fuel : Nat) :
    ∀ (l : List Advice) (a j : Int) (x : Advice), x ∈ insInnerF l a j fuel → x ∈ l := by
  induction fuel with
  | zero => intro l a j x h; exact h
  | succ f ih =>
    intro l a j x h
    simp only [insInnerF] at h
    split at h
    · exact mem_iswap _ _ _ _ (ih _ _ _ _ h)
    · exact h

/-- Membership preservation for `insInner`. -/
theorem mem_insInner (l : List Advice) (a j : Int) (x : Advice)
    (h : x ∈ insInner l a j) : x ∈ l :=
  mem_insInnerF _ _ _ _ _ h

/-- Membership preservation for the insertion-sort outer loop. -/
theorem mem_insOuterF (fuel : Nat) :
    ∀ (l : List Advice) (a b i : Int) (x : Advice), x ∈ insOuterF l a b i fuel → x ∈ l := by
  induction fuel with
  | zero => intro l a b i x h; exact h
  | succ f ih =>
    intro l a b i x h
    simp only [insOuterF] at h
    split at h
    · exact mem_insInner _ _ _ _ (ih _ _ _ _ _ h)
    · exact h

/-- Membership preservation for insertionSort_func. -/
theorem mem_insertionSortGo (l : List Advice) (a b : Int) (x : Advice)
    (h : x ∈ insertionSortGo l a b) : x ∈ l :=
  mem_insOuterF _ _ _ _ _ _ h

/-- Membership preservation for siftDown_func. -/
theorem mem_siftDownGo (fuel : Nat) :
    ∀ (l : List Advice) (lo hi first : Int) (x : Advice),
    x ∈ siftDownGo l lo hi first fuel → x ∈ l := by
  induction fuel with
  | zero => intro l lo hi first x h; exact h
  | succ f ih =>
    intro l lo hi first x h
    simp only [siftDownGo] at h
    repeat' split at h
    all_goals first
      | exact h
      | exact mem_iswap _ _ _ _ (ih _ _ _ _ _ h)

/-- Membership preservation for the heap-build loop. -/
theorem mem_heapBuild (cnt : Nat) :
    ∀ (l : List Advice) (hi first : Int) (fuel : Nat) (x : Advice),
    x ∈ heapBuild l hi first cnt fuel → x ∈ l := by
  induction cnt with
  | zero => intro l hi first fuel x h; exact h
  | succ c ih =>
    intro l hi first fuel x h
    simp only [heapBuild] at h
    exact mem_siftDownGo _ _ _ _ _ _ (ih _ _ _ _ _ h)

/-- Membership preservation for the heap-pop loop. -/
theorem mem_heapPop (cnt : Nat) :
    ∀ (l : List Advice) (first : Int) (fuel : Nat) (x : Advice),
    x ∈ heapPop l first cnt fuel → x ∈ l := by
  induction cnt with
  | zero => intro l first fuel x h; exact h
  | succ c ih =>
    intro l first fuel x h
    simp only [heapPop] at h
    exact mem_iswap _ _ _ _ (mem_siftDownGo _ _ _ _ _ _ (ih _ _ _ _ h))

/-- Membership preservation for heapSort_func. -/
theorem mem_heapSortGo (l : List Advice) (a b : Int) (fuel : Nat) (x : Advice)
    (h : x ∈ heapSortGo l a b fuel) : x ∈ l :=
  mem_heapBuild _ _ _ _ _ _ (mem_heapPop _ _ _ _ _ h)

/-- Membership preservation for the breakPatterns loop. -/
theorem mem_bpLoop (steps : Nat) :
    ∀ (l : List Advice) (a : Int) (len : Nat) (idx : Int) (modulus r : Nat) (x : Advice),
    x ∈ bpLoop l a len idx modulus r steps → x ∈ l := by
  induction steps with
  | zero => intro l a len idx modulus r x h; exact h
  | succ s ih =>
    intro l a len idx modulus r x h
    simp only [bpLoop] at h
    exact mem_iswap _ _ _ _ (ih _ _ _ _ _ _ _ h)

/-- Membership preservation for breakPatterns_func. -/
theorem mem_breakPatternsGo (l : List Advice) (a b : Int) (x : Advice)
    (h : x ∈ breakPatternsGo l a b) : x ∈ l := by
  simp only [breakPatternsGo] at h
  split at h
  · exact mem_bpLoop _ _ _ _ _ _ _ _ h
  · exact h

/-- Membership preservation for reverseRange_func. -/
theorem mem_reverseRangeF (fuel : Nat) :
    ∀ (l : List Advice) (i j : Int) (x : Advice), x ∈ reverseRangeF l i j fuel → x ∈ l := by
  induction fuel with
  | zero => intro l i j x h; exact h
  | succ f ih =>
    intro l i j x h
    simp only [reverseRangeF] at h
    split at h
    · exact mem_iswap _ _ _ _ (ih _ _ _ _ h)
    · exact h

/-- Membership preservation for `reverseRangeGo`. -/
theorem mem_reverseRangeGo (l : List Advice) (i j : Int) (x : Advice)
    (h : x ∈ reverseRangeGo l i j) : x ∈ l :=
  mem_reverseRangeF _ _ _ _ _ h

/-- Membership preservation for the partition main loop. -/
theorem mem_partitionLoopGo (fuel : Nat) :
    ∀ (l : List Advice) (a i j : Int) (x : Advice),
    x ∈ (partitionLoopGo l a i j fuel).1 → x ∈ l := by
  induction fuel with
  | zero => intro l a i j x h; exact h
  | succ f ih =>
    intro l a i j x h
    simp only [partitionLoopGo] at h
    split at h
    · exact h
    · exact mem_iswap _ _ _ _ (ih _ _ _ _ _ h)

/-- Membership preservation for partition_func. -/
theorem mem_partitionGo (l : List Advice) (a b pivot : Int) (fuel : Nat) (x : Advice)
    (h : x ∈ (partitionGo l a b pivot fuel).1) : x ∈ l := by
  simp only [partitionGo] at h
  split at h
  · exact mem_iswap _ _ _ _ (mem_iswap _ _ _ _ h)
  · exact mem_iswap _ _ _ _ (mem_iswap _ _ _ _
      (mem_partitionLoopGo _ _ _ _ _ _ (mem_iswap _ _ _ _ h)))

/-- Membership preservation for the partitionEqual main loop. -/
theorem mem_partitionEqualLoop (fuel : Nat) :
    ∀ (l : List Advice) (a i j : Int) (x : Advice),
    x ∈ (partitionEqualLoop l a i j fuel).1 → x ∈ l := by
  induction fuel with
  | zero => intro l a i j x h; exact h
  | succ f ih =>
    intro l a i j x h
    simp only [partitionEqualLoop] at h
    split at h
    · exact h
    · exact mem_iswap _ _ _ _ (ih _ _ _ _ _ h)

/-- Membership preservation for partitionEqual_func. -/
theorem mem_partitionEqualGo (l : List Advice) (a b pivot : Int) (fuel : Nat) (x : Advice)
    (h : x ∈ (partitionEqualGo l a b pivot fuel).1) : x ∈ l := by
  simp only [partitionEqualGo] at h
  exact mem_iswap _ _ _ _ (mem_partitionEqualLoop _ _ _ _ _ _ h)

/-- Membership preservation for the left shift of partialInsertionSort_func. -/
theorem mem_sisShiftL (fuel : Nat) :
    ∀ (l : List Advice) (j : Int) (x : Advice), x ∈ sisShiftL l j fuel → x ∈ l := by
  induction fuel with
  | zero => intro l j x h; exact h
  | succ f ih =>
    intro l j x h
    simp only [sisShiftL] at h
    split at h
    · split at h
      · exact h
      · exact mem_iswap _ _ _ _ (ih _ _ _ h)
    · exact h

/-- Membership preservation for the right shift of partialInsertionSort_func. -/
theorem mem_sisShiftR (fuel : Nat) :
    ∀ (l : List Advice) (j b : Int) (x : Advice), x ∈ sisShiftR l j b fuel → x ∈ l := by
  induction fuel with
  | zero => intro l j b x h; exact h
  | succ f ih =>
    intro l j b x h
    simp only [sisShiftR] at h
    split at h
    · split at h
      · exact h
      · exact mem_iswap _ _ _ _ (ih _ _ _ _ h)
    · exact h

/-- Membership preservation for partialInsertionSort_func. -/
theorem mem_shortInsLoop (steps : Nat) :
    ∀ (l : List Advice) (a b i : Int) (fuel : Nat) (x : Advice),
    x ∈ (shortInsLoop l a b i steps fuel).1 → x ∈ l := by
  induction steps with
  | zero => intro l a b i fuel x h; exact h
  | succ s ih =>
    intro l a b i fuel x h
    simp only [shortInsLoop] at h
    split at h
    · exact h
    · split at h
      · exact h
      · have h1 := ih _ _ _ _ _ _ h
        repeat' split at h1
        all_goals first
          | exact mem_iswap _ _ _ _ h1
          | exact mem_iswap _ _ _ _ (mem_sisShiftL _ _ _ _ h1)
          | exact mem_iswap _ _ _ _ (mem_sisShiftR _ _ _ _ _ h1)
          | exact mem_iswap _ _ _ _ (mem_sisShiftL _ _ _ _ (mem_sisShiftR _ _ _ _ _ h1))

/-- Membership preservation for the breakPatterns step. -/
theorem mem_pdqPrep (l : List Advice) (a b : Int) (wb : Bool) (x : Advice)
    (h : x ∈ pdqPrep l a b wb) : x ∈ l := by
  simp only [pdqPrep] at h
  split at h
  · exact mem_breakPatternsGo _ _ _ _ h
  · exact h

/-- Membership preservation for the pivot-choice step. -/
theorem mem_pdqChoose (l : List Advice) (a b : Int) (x : Advice)
    (h : x ∈ (pdqChoose l a b).1) : x ∈ l := by
  simp only [pdqChoose] at h
  split at h
  · exact mem_reverseRangeGo _ _ _ _ h
  · exact h

/-- Membership preservation for the likely-sorted check. -/
theorem mem_pdqMaybeShort (l : List Advice) (a b : Int) (wb wp : Bool)
    (hint : SortedHint) (lf : Nat) (x : Advice)
    (h : x ∈ (pdqMaybeShort l a b wb wp hint lf).1) : x ∈ l := by
  simp only [pdqMaybeShort] at h
  split at h
  · exact mem_shortInsLoop _ _ _ _ _ _ _ h
  · exact h

/-- Membership preservation for the pdqsort loop. -/
theorem mem_pdqsortLoop (fuel : Nat) :
    ∀ (l : List Advice) (a b limit : Int) (wb wp : Bool) (x : Advice),
    x ∈ pdqsortLoop l a b limit wb wp fuel → x ∈ l := by
  induction fuel with
  | zero => intro l a b limit wb wp x h; exact h
  | succ f ih =>
    intro l a b limit wb wp x h
    simp only [pdqsortLoop] at h
    repeat' split at h
    all_goals first
      | exact h
      | exact mem_insertionSortGo _ _ _ _ h
      | exact mem_heapSortGo _ _ _ _ _ h
      | exact mem_pdqPrep _ _ _ _ _ (mem_pdqChoose _ _ _ _ (mem_pdqMaybeShort _ _ _ _ _ _ _ _ h))
      | exact mem_pdqPrep _ _ _ _ _ (mem_pdqChoose _ _ _ _ (mem_pdqMaybeShort _ _ _ _ _ _ _ _
          (mem_partitionEqualGo _ _ _ _ _ _ (ih _ _ _ _ _ _ _ h))))
      | exact mem_pdqPrep _ _ _ _ _ (mem_pdqChoose _ _ _ _ (mem_pdqMaybeShort _ _ _ _ _ _ _ _
          (mem_partitionGo _ _ _ _ _ _ (ih _ _ _ _ _ _ _ (ih _ _ _ _ _ _ _ h)))))

/-- The sort.Slice output only contains elements of its input. -/
theorem mem_sortSliceGo (l : List Advice) (x : Advice)
    (h : x ∈ sortSliceGo l) : x ∈ l :=
  mem_pdqsortLoop _ _ _ _ _ _ _ _ h

/-! ### Outcome preservation lemmas and C4 -/

/-- Outcome-safe writes preserve the error and panic fields. -/
theorem outcome_applyActs (acts : List HAct) :
    ∀ (c : Context), acts.all outcomeSafeAct = true →
    (applyActs acts c).error = c.error ∧ (applyActs acts c).panicValue = c.panicValue := by
  induction acts with
  | nil => intro c h; exact ⟨rfl, rfl⟩
  | cons a rest ih =>
    intro c h
    simp only [List.all_cons, Bool.and_eq_true] at h
    have hstep : (applyAct c a).error = c.error ∧ (applyAct c a).panicValue = c.panicValue := by
      cases a with
      | hSetError e => simp [outcomeSafeAct] at h
      | hSetPanic p => simp [outcomeSafeAct] at h
      | hSetSkipped b => exact ⟨rfl, rfl⟩
      | hSetMeta k v => exact ⟨rfl, rfl⟩
      | hSetResult i v =>
        simp only [applyAct, Context.SetResult]
        split
        · exact ⟨rfl, rfl⟩
        · exact ⟨rfl, rfl⟩
    have hrec := ih (applyAct c a) h.2
    simp only [applyActs, List.foldl_cons] at *
    exact ⟨hrec.1.trans hstep.1, hrec.2.trans hstep.2⟩

/-- A run of outcome-safe handlers preserves the error and panic fields. -/
theorem outcome_execList (ph : AdviceType) (l : List Advice) :
    ∀ (c : Context), (∀ x ∈ l, keepsOutcome x = true) →
    (execList ph c l).1.error = c.error ∧ (execList ph c l).1.panicValue = c.panicValue := by
  induction l with
  | nil => intro c h; exact ⟨rfl, rfl⟩
  | cons a rest ih =>
    intro c h
    have ha : a.acts.all outcomeSafeAct = true := h a (by simp)
    simp only [execList]
    split
    · exact ⟨rfl, rfl⟩
    · simp only [runHandler]
      cases hr : a.ret with
      | some e =>
        simp only []
        exact outcome_applyActs a.acts c ha
      | none =>
        simp only []
        have h1 := outcome_applyActs a.acts c ha
        have h2 := ih (applyActs a.acts c) (fun x hx => h x (by simp [hx]))
        exact ⟨h2.1.trans h1.1, h2.2.trans h1.2⟩

/-- A phase execution over outcome-safe handlers preserves the error and
panic fields. -/
theorem outcome_executeAdviceList (ph : AdviceType) (c : Context) (l : List Advice)
    (h : ∀ x ∈ l, keepsOutcome x = true) :
    (executeAdviceList ph c l).1.error = c.error
    ∧ (executeAdviceList ph c l).1.panicValue = c.panicValue := by
  simp only [executeAdviceList]
  split
  · exact ⟨rfl, rfl⟩
  · exact outcome_execList ph (sortSliceGo l) c fun x hx => h x (mem_sortSliceGo l x hx)

/-- With outcome-safe AfterThrowing and After handlers, the unwind
epilogue keeps the error field and pins the panic field to the payload. -/
theorem finishUnwind_ctx_fields (chain : AdviceChain) (p : PanicVal) (c : Context)
    (tr : List Ev)
    (h2 : ∀ x ∈ chain.afterThrowing, keepsOutcome x = true)
    (h3 : ∀ x ∈ chain.after, keepsOutcome x = true) :
    (finishUnwind chain p c tr).ctx.error = c.error
    ∧ (finishUnwind chain p c tr).ctx.panicValue = some p := by
  simp only [finishUnwind]
  have hA := outcome_executeAdviceList .AfterThrowing { c with panicValue := some p }
    chain.afterThrowing h2
  have hB := outcome_executeAdviceList .After
    (executeAdviceList .AfterThrowing { c with panicValue := some p } chain.afterThrowing).1
    chain.after h3
  exact ⟨hB.1.trans hA.1, hB.2.trans hA.2⟩

/-- With outcome-safe After handlers, the normal epilogue preserves the
error and panic fields and returns normally. -/
theorem finishNormal_ctx_fields (chain : AdviceChain) (c : Context) (tr : List Ev)
    (h3 : ∀ x ∈ chain.after, keepsOutcome x = true) :
    (finishNormal chain c tr).ctx.error = c.error
    ∧ (finishNormal chain c tr).ctx.panicValue = c.panicValue
    ∧ (finishNormal chain c tr).panicked = none := by
  simp only [finishNormal]
  have hB := outcome_executeAdviceList .After c chain.after h3
  exact ⟨hB.1, hB.2, trivial⟩

/-- Membership in the normal epilogue's trace. -/
theorem mem_finishNormal_trace (chain : AdviceChain) (c : Context) (tr : List Ev)
    (ev : Ev) (h : ev ∈ (finishNormal chain c tr).trace) :
    ev ∈ tr ∨ ev = .phase .After ∨ (∃ i, ev = .handler .After i) := by
  simp only [finishNormal] at h
  rcases List.mem_append.mp h with h | h
  · exact Or.inl h
  · rcases List.mem_cons.mp h with h | h
    · exact Or.inr (Or.inl h)
    · exact Or.inr (Or.inr (executeAdviceList_events .After c chain.after ev h))

/-- The incoming trace is contained in the normal epilogue's trace. -/
theorem finishNormal_trace_sub (chain : AdviceChain) (c : Context) (tr : List Ev)
    (ev : Ev) (h : ev ∈ tr) : ev ∈ (finishNormal chain c tr).trace := by
  simp only [finishNormal]
  exact List.mem_append.mpr (Or.inl h)

/-- The outcome contract holds for every unwind path. -/
theorem C4_unwind_case (chain : AdviceChain) (p : PanicVal) (c : Context) (tr : List Ev)
    (h2 : ∀ x ∈ chain.afterThrowing, keepsOutcome x = true)
    (h3 : ∀ x ∈ chain.after, keepsOutcome x = true)
    (htr : ∀ ev ∈ tr, ev ≠ Ev.phase .AfterReturning) :
    outcomeOk (finishUnwind chain p c tr) := by
  have hAR : Ev.phase .AfterReturning ∉ (finishUnwind chain p c tr).trace := by
    intro hmem
    rcases mem_finishUnwind_trace _ _ _ _ _ hmem with h | h | ⟨i, h⟩ | h | ⟨i, h⟩
    · exact absurd rfl (htr _ h)
    all_goals simp at h
  have hfields := finishUnwind_ctx_fields chain p c tr h2 h3
  refine ⟨⟨fun hmem => absurd hmem hAR, fun hcond => ?_⟩, ⟨fun _ => ?_, fun _ => ?_⟩, fun hb => hAR hb.1⟩
  · exfalso
    have hp : (finishUnwind chain p c tr).ctx.HasPanic = true := by
      simp [Context.HasPanic, hfields.2]
    rw [hp] at hcond
    exact absurd hcond.2 (by simp)
  · rw [finishUnwind_panicked]; simp
  · exact finishUnwind_throwing_ran _ _ _ _

/-- The outcome contract holds for the normal path that ran
AfterReturning. -/
theorem C4_normal_ar_case (chain : AdviceChain) (cAR : Context) (tr0 t3 : List Ev)
    (h3 : ∀ x ∈ chain.after, keepsOutcome x = true)
    (hcerr : cAR.error = none) (hcpan : cAR.panicValue = none)
    (ht3 : ∀ ev ∈ t3, ∃ i, ev = Ev.handler .AfterReturning i)
    (htr : ∀ ev ∈ tr0, ev ≠ Ev.phase .AfterThrowing) :
    outcomeOk (finishNormal chain cAR (tr0 ++ Ev.phase .AfterReturning :: t3)) := by
  have hfields := finishNormal_ctx_fields chain cAR (tr0 ++ Ev.phase .AfterReturning :: t3) h3
  have hARmem : Ev.phase .AfterReturning
      ∈ (finishNormal chain cAR (tr0 ++ Ev.phase .AfterReturning :: t3)).trace :=
    finishNormal_trace_sub _ _ _ _ (List.mem_append.mpr (Or.inr (by simp)))
  have hATnot : Ev.phase .AfterThrowing
      ∉ (finishNormal chain cAR (tr0 ++ Ev.phase .AfterReturning :: t3)).trace := by
    intro hmem
    rcases mem_finishNormal_trace _ _ _ _ hmem with h | h | ⟨i, h⟩
    · rcases List.mem_append.mp h with h | h
      · exact absurd rfl (htr _ h)
      · rcases List.mem_cons.mp h with h | h
        · simp at h
        · rcases ht3 _ h with ⟨i, hi⟩; simp at hi
    all_goals simp at h
  refine ⟨⟨fun _ => ?_, fun _ => hARmem⟩, ⟨fun hmem => absurd hmem hATnot, fun hp => ?_⟩,
    fun hb => hATnot hb.2⟩
  · refine ⟨hfields.1.trans hcerr, ?_⟩
    simp [Context.HasPanic, hfields.2.1, hcpan]
  · exact absurd hfields.2.2 hp

/-- The outcome contract holds for the normal path that skipped
AfterReturning. -/
theorem C4_normal_noar_case (chain : AdviceChain) (c : Context) (tr0 : List Ev)
    (h3 : ∀ x ∈ chain.after, keepsOutcome x = true)
    (hc : ¬(c.error = none ∧ c.HasPanic = false))
    (htrAR : ∀ ev ∈ tr0, ev ≠ Ev.phase .AfterReturning)
    (htrAT : ∀ ev ∈ tr0, ev ≠ Ev.phase .AfterThrowing) :
    outcomeOk (finishNormal chain c tr0) := by
  have hfields := finishNormal_ctx_fields chain c tr0 h3
  have hARnot : Ev.phase .AfterReturning ∉ (finishNormal chain c tr0).trace := by
    intro hmem
    rcases mem_finishNormal_trace _ _ _ _ hmem with h | h | ⟨i, h⟩
    · exact absurd rfl (htrAR _ h)
    all_goals simp at h
  have hATnot : Ev.phase .AfterThrowing ∉ (finishNormal chain c tr0).trace := by
    intro hmem
    rcases mem_finishNormal_trace _ _ _ _ hmem with h | h | ⟨i, h⟩
    · exact absurd rfl (htrAT _ h)
    all_goals simp at h
  refine ⟨⟨fun hmem => absurd hmem hARnot, fun hcond => ?_⟩,
    ⟨fun hmem => absurd hmem hATnot, fun hp => ?_⟩, fun hb => hARnot hb.1⟩
  · exfalso
    apply hc
    refine ⟨hfields.1.symm.trans hcond.1, ?_⟩
    have hpv : c.panicValue = none := by
      rw [← hfields.2.1]
      have := hcond.2
      simp [Context.HasPanic] at this
      exact this
    simp [Context.HasPanic, hpv]
  · exact absurd hfields.2.2 hp

/-- The outcome contract holds from the target-invocation step onward. -/
theorem C4_proceedTarget (chain : AdviceChain) (c : Context) (tr : List Ev) (tgt : Target)
    (h1 : ∀ x ∈ chain.afterReturning, keepsOutcome x = true)
    (h2 : ∀ x ∈ chain.afterThrowing, keepsOutcome x = true)
    (h3 : ∀ x ∈ chain.after, keepsOutcome x = true)
    (htrAR : ∀ ev ∈ tr, ev ≠ Ev.phase .AfterReturning)
    (htrAT : ∀ ev ∈ tr, ev ≠ Ev.phase .AfterThrowing) :
    outcomeOk (proceedTarget chain c tr tgt) := by
  have htrAR' : ∀ ev ∈ tr ++ [Ev.targetRun], ev ≠ Ev.phase .AfterReturning := by
    intro ev hev
    rcases List.mem_append.mp hev with h | h
    · exact htrAR ev h
    · simp at h; rw [h]; simp
  have htrAT' : ∀ ev ∈ tr ++ [Ev.targetRun], ev ≠ Ev.phase .AfterThrowing := by
    intro ev hev
    rcases List.mem_append.mp hev with h | h
    · exact htrAT ev h
    · simp at h; rw [h]; simp
  simp only [proceedTarget, runTarget]
  cases hp : tgt.panics with
  | some pv =>
    simp only []
    exact C4_unwind_case chain pv _ _ h2 h3 htrAR'
  | none =>
    simp only []
    by_cases hcond : (applyActs tgt.acts c).error = none ∧ ¬ (applyActs tgt.acts c).HasPanic
    · rw [if_pos hcond]
      have hE := outcome_executeAdviceList .AfterReturning (applyActs tgt.acts c)
        chain.afterReturning h1
      refine C4_normal_ar_case chain _ _ _ h3 (hE.1.trans hcond.1) ?_ ?_ htrAT'
      · rw [hE.2]
        have := hcond.2
        simp [Context.HasPanic] at this
        exact this
      · intro ev hev
        exact executeAdviceList_events .AfterReturning (applyActs tgt.acts c)
          chain.afterReturning ev hev
    · rw [if_neg hcond]
      refine C4_normal_noar_case chain _ _ h3 ?_ htrAR' htrAT'
      intro hcc
      exact hcond ⟨hcc.1, by simp [hcc.2]⟩

/-- C4: for every invocation of a registered function whose outcome and
cleanup advice do not write the error or panic fields, AfterReturning runs
if and only if the Context ends with no error and no captured panic,
AfterThrowing runs if and only if a panic propagates from the run, and the
two phases never both run in the same invocation. -/
theorem C4_outcome_phase_dichotomy (reg : Registry) (key : String) (cancelled : Bool)
    (tgt : Target) (args : List Int) (chain : AdviceChain)
    (hch : reg.GetAdviceChain key = .ok chain)
    (h1 : ∀ a ∈ chain.afterReturning, keepsOutcome a = true)
    (h2 : ∀ a ∈ chain.afterThrowing, keepsOutcome a = true)
    (h3 : ∀ a ∈ chain.after, keepsOutcome a = true) :
    outcomeOk (executeWithAdviceContext reg key cancelled tgt args) := by
  simp only [executeWithAdviceContext, hch]
  rcases hB : executeAdviceList .Before (NewContextWithContext cancelled key args)
    chain.before with ⟨c1, t1, r1⟩
  have ht1AR : ∀ ev ∈ Ev.phase .Before :: t1, ev ≠ Ev.phase .AfterReturning := by
    intro ev hev
    rcases List.mem_cons.mp hev with h | h
    · rw [h]; simp
    · rcases (by
        have h' := executeAdviceList_events .Before (NewContextWithContext cancelled key args)
          chain.before ev (by rw [hB]; exact h)
        exact h' : ∃ i, ev = .handler .Before i) with ⟨i, hi⟩
      rw [hi]; simp
  have ht1AT : ∀ ev ∈ Ev.phase .Before :: t1, ev ≠ Ev.phase .AfterThrowing := by
    intro ev hev
    rcases List.mem_cons.mp hev with h | h
    · rw [h]; simp
    · rcases (by
        have h' := executeAdviceList_events .Before (NewContextWithContext cancelled key args)
          chain.before ev (by rw [hB]; exact h)
        exact h' : ∃ i, ev = .handler .Before i) with ⟨i, hi⟩
      rw [hi]; simp
  cases r1 with
  | some e => exact C4_unwind_case chain _ c1 _ h2 h3 ht1AR
  | none =>
    simp only []
    split
    · rcases hA : executeAdviceList .Around c1 chain.around with ⟨c2, t2, r2⟩
      have ht2AR : ∀ ev ∈ (Ev.phase .Before :: t1) ++ (Ev.phase .Around :: t2),
          ev ≠ Ev.phase .AfterReturning := by
        intro ev hev
        rcases List.mem_append.mp hev with h | h
        · exact ht1AR ev h
        · rcases List.mem_cons.mp h with h | h
          · rw [h]; simp
          · rcases (by
              have h' := executeAdviceList_events .Around c1 chain.around ev
                (by rw [hA]; exact h)
              exact h' : ∃ i, ev = .handler .Around i) with ⟨i, hi⟩
            rw [hi]; simp
      have ht2AT : ∀ ev ∈ (Ev.phase .Before :: t1) ++ (Ev.phase .Around :: t2),
          ev ≠ Ev.phase .AfterThrowing := by
        intro ev hev
        rcases List.mem_append.mp hev with h | h
        · exact ht1AT ev h
        · rcases List.mem_cons.mp h with h | h
          · rw [h]; simp
          · rcases (by
              have h' := executeAdviceList_events .Around c1 chain.around ev
                (by rw [hA]; exact h)
              exact h' : ∃ i, ev = .handler .Around i) with ⟨i, hi⟩
            rw [hi]; simp
      cases r2 with
      | some e => exact C4_unwind_case chain _ c2 _ h2 h3 ht2AR
      | none =>
        simp only []
        split
        · split
          · rename_i hcond
            have hE := outcome_executeAdviceList .AfterReturning c2 chain.afterReturning h1
            refine C4_normal_ar_case chain _ _ _ h3 (hE.1.trans hcond.1) ?_ ?_ ht2AT
            · rw [hE.2]
              have := hcond.2
              simp [Context.HasPanic] at this
              exact this
            · intro ev hev
              exact executeAdviceList_events .AfterReturning c2 chain.afterReturning ev hev
          · rename_i hcond
            refine C4_normal_noar_case chain _ _ h3 ?_ ht2AR ht2AT
            intro hcc
            exact hcond ⟨hcc.1, by simp [hcc.2]⟩
        · exact C4_proceedTarget chain c2 _ tgt h1 h2 h3 ht2AR ht2AT
    · exact C4_proceedTarget chain c1 _ tgt h1 h2 h3 ht1AR ht1AT

/-- Witness for C4 at the skip chain (skip path ran AfterReturning). -/
theorem C4_outcome_phase_dichotomy_witness :
    outcomeOk (executeWithAdviceContext skipReg "G" false idleTarget []) :=
  C4_outcome_phase_dichotomy skipReg "G" false idleTarget [] skipChain (by rfl)
    (by decide) (by decide) (by decide)

/-! ### Skip/result preservation lemmas and C5 -/

/-- sort.Slice leaves a one-element slice unchanged. -/
theorem sortSliceGo_singleton (x : Advice) : sortSliceGo [x] = [x] := rfl

/-- SetResult only touches the results list. -/
theorem SetResult_fields (c : Context) (i : Int) (v : Option Int) :
    (c.SetResult i v).skipped = c.skipped
    ∧ (c.SetResult i v).error = c.error
    ∧ (c.SetResult i v).panicValue = c.panicValue
    ∧ (c.SetResult i v).cancelled = c.cancelled := by
  simp only [Context.SetResult]
  split
  · exact ⟨rfl, rfl, rfl, rfl⟩
  · exact ⟨rfl, rfl, rfl, rfl⟩

/-- Growing the results list keeps at least the requested length. -/
theorem extendResults_len (l : List (Option Int)) (n : Nat) :
    (extendResults l n).length = max l.length (n + 1) := by
  simp only [extendResults, List.length_append, List.length_replicate]
  omega

/-- Growing the results list does not change slot 0. -/
theorem extendResults_getD0 (l : List (Option Int)) (n : Nat) :
    (extendResults l n).getD 0 none = l.getD 0 none := by
  cases l with
  | nil => simp [extendResults]
  | cons x xs => simp [extendResults]

/-- Writing slot 0 makes slot 0 hold the value. -/
theorem setResult0_getD (c : Context) (v : Option Int) :
    ((c.SetResult 0 v).results.getD 0 none) = v := by
  simp only [Context.SetResult]
  rw [if_neg (by omega)]
  simp only [show (0 : Int).toNat = 0 from rfl]
  have hlen : 0 < (extendResults c.results 0).length := by
    rw [extendResults_len]
    omega
  rw [List.getD_eq_getElem?_getD, List.getElem?_set_eq_of_lt _ hlen]
  rfl

/-- Writing a non-zero slot does not change slot 0. -/
theorem setResult_ne0_getD (c : Context) (i : Int) (v : Option Int) (h : i ≠ 0) :
    ((c.SetResult i v).results.getD 0 none) = c.results.getD 0 none := by
  simp only [Context.SetResult]
  split
  · rfl
  · rename_i hneg
    have hi : i.toNat ≠ 0 := by omega
    rw [List.getD_eq_getElem?_getD, List.getElem?_set_ne (by omega),
      ← List.getD_eq_getElem?_getD]
    exact extendResults_getD0 c.results i.toNat

/-- Slot-0-safe writes preserve the skip flag and slot 0. -/
theorem slot0_applyActs (acts : List HAct) :
    ∀ (c : Context), acts.all slot0SafeAct = true →
    (applyActs acts c).skipped = c.skipped
    ∧ (applyActs acts c).results.getD 0 none = c.results.getD 0 none := by
  induction acts with
  | nil => intro c h; exact ⟨rfl, rfl⟩
  | cons a rest ih =>
    intro c h
    simp only [List.all_cons, Bool.and_eq_true] at h
    have hstep : (applyAct c a).skipped = c.skipped
        ∧ (applyAct c a).results.getD 0 none = c.results.getD 0 none := by
      cases a with
      | hSetSkipped b => simp [slot0SafeAct] at h
      | hSetResult i v =>
        have hi : i ≠ 0 := by
          have := h.1
          simp [slot0SafeAct] at this
          exact this
        exact ⟨(SetResult_fields c i v).1, setResult_ne0_getD c i v hi⟩
      | hSetError e => exact ⟨rfl, rfl⟩
      | hSetMeta k v => exact ⟨rfl, rfl⟩
      | hSetPanic p => exact ⟨rfl, rfl⟩
    have hrec := ih (applyAct c a) h.2
    simp only [applyActs, List.foldl_cons] at *
    exact ⟨hrec.1.trans hstep.1, hrec.2.trans hstep.2⟩

/-- A run of slot-0-safe handlers preserves the skip flag and slot 0. -/
theorem slot0_execList (ph : AdviceType) (l : List Advice) :
    ∀ (c : Context), (∀ x ∈ l, keepsSlot0 x = true) →
    (execList ph c l).1.skipped = c.skipped
    ∧ (execList ph c l).1.results.getD 0 none = c.results.getD 0 none := by
  induction l with
  | nil => intro c h; exact ⟨rfl, rfl⟩
  | cons a rest ih =>
    intro c h
    have ha : a.acts.all slot0SafeAct = true := h a (by simp)
    simp only [execList]
    split
    · exact ⟨rfl, rfl⟩
    · simp only [runHandler]
      cases hr : a.ret with
      | some e =>
        simp only []
        exact slot0_applyActs a.acts c ha
      | none =>
        simp only []
        have h1 := slot0_applyActs a.acts c ha
        have h2 := ih (applyActs a.acts c) (fun x hx => h x (by simp [hx]))
        exact ⟨h2.1.trans h1.1, h2.2.trans h1.2⟩

/-- A phase execution over slot-0-safe handlers preserves the skip flag
and slot 0. -/
theorem slot0_executeAdviceList (ph : AdviceType) (c : Context) (l : List Advice)
    (h : ∀ x ∈ l, keepsSlot0 x = true) :
    (executeAdviceList ph c l).1.skipped = c.skipped
    ∧ (executeAdviceList ph c l).1.results.getD 0 none = c.results.getD 0 none := by
  simp only [executeAdviceList]
  split
  · exact ⟨rfl, rfl⟩
  · exact slot0_execList ph (sortSliceGo l) c fun x hx => h x (mem_sortSliceGo l x hx)

/-- With slot-0-safe After handlers, the normal epilogue preserves the
skip flag and slot 0 and returns normally. -/
theorem slot0_finishNormal (chain : AdviceChain) (c : Context) (tr : List Ev)
    (hAf : ∀ x ∈ chain.after, keepsSlot0 x = true) :
    (finishNormal chain c tr).ctx.skipped = c.skipped
    ∧ (finishNormal chain c tr).ctx.results.getD 0 none = c.results.getD 0 none
    ∧ (finishNormal chain c tr).panicked = none := by
  simp only [finishNormal]
  have h := slot0_executeAdviceList .After c chain.after hAf
  exact ⟨h.1, h.2, trivial⟩

/-- The execution loop does not touch the cancellation signal. -/
theorem cancelled_execList (ph : AdviceType) (l : List Advice) :
    ∀ (c : Context), (execList ph c l).1.cancelled = c.cancelled := by
  induction l with
  | nil => intro c; rfl
  | cons a rest ih =>
    intro c
    simp only [execList]
    split
    · rfl
    · simp only [runHandler]
      cases a.ret with
      | some e => exact cancelled_applyActs a.acts c
      | none =>
        simp only []
        exact (ih (applyActs a.acts c)).trans (cancelled_applyActs a.acts c)

/-- A phase execution does not touch the cancellation signal. -/
theorem cancelled_executeAdviceList (ph : AdviceType) (c : Context) (l : List Advice) :
    (executeAdviceList ph c l).1.cancelled = c.cancelled := by
  simp only [executeAdviceList]
  split
  · rfl
  · exact cancelled_execList ph (sortSliceGo l) c

/-- A phase execution over handlers that all succeed returns no error. -/
theorem executeAdviceList_ok (ph : AdviceType) (c : Context) (l : List Advice)
    (hc : c.cancelled = false) (h : ∀ x ∈ l, x.ret = none) :
    (executeAdviceList ph c l).2.2 = none := by
  simp only [executeAdviceList]
  split
  · rfl
  · exact (execList_ok ph (sortSliceGo l) c hc fun x hx => h x (mem_sortSliceGo l x hx)).2

/-- A list whose slot 0 holds a value is non-empty. -/
theorem length_pos_of_getD0 (l : List (Option Int)) (v : Int)
    (h : l.getD 0 none = some v) : 0 < l.length := by
  cases l with
  | nil => simp at h
  | cons x xs => simp

/-- C5: when the Around advice of a registered function sets the skip
flag and writes result slot 0, and the remaining advice neither fails
before it nor overwrites the flag or the slot after it, the target thunk
is not invoked and the Wrap0R wrapper returns the value Around wrote, not
the type's zero value and not the target's value. -/
theorem C5_skip_prefers_around_result (reg : Registry) (key : String) (fnRet : Int)
    (pr : Int) (i : Nat) (v : Int) (chain : AdviceChain)
    (hch : reg.GetAdviceChain key = .ok chain)
    (haround : chain.around = [skipAdv pr i v])
    (hbefore : ∀ a ∈ chain.before, a.ret = none)
    (hAR : ∀ a ∈ chain.afterReturning, keepsSlot0 a = true)
    (hAf : ∀ a ∈ chain.after, keepsSlot0 a = true) :
    ∃ er, Wrap0R reg key false fnRet = .ok (v, er) ∧ Ev.targetRun ∉ er.trace := by
  have hfacts : ∀ tgt : Target,
      (executeWithAdviceContext reg key false tgt []).panicked = none
      ∧ (executeWithAdviceContext reg key false tgt []).ctx.skipped = true
      ∧ (executeWithAdviceContext reg key false tgt []).ctx.results.getD 0 none = some v
      ∧ (∀ ev ∈ (executeWithAdviceContext reg key false tgt []).trace, ev ≠ Ev.targetRun) := by
    intro tgt
    rcases hB : executeAdviceList .Before (NewContextWithContext false key []) chain.before
      with ⟨c1, t1, r1⟩
    have hr1 : r1 = none := by
      have h := executeAdviceList_ok .Before (NewContextWithContext false key [])
        chain.before rfl hbefore
      rw [hB] at h; exact h
    subst hr1
    have hc1 : c1.cancelled = false := by
      have h := cancelled_executeAdviceList .Before (NewContextWithContext false key [])
        chain.before
      rw [hB] at h; exact h
    have hHA : chain.HasAround = true := by
      simp [AdviceChain.HasAround, haround]
    have hAexec : executeAdviceList .Around c1 chain.around
        = (({ c1 with skipped := true }).SetResult 0 (some v),
           [Ev.handler .Around i], none) := by
      rw [haround]
      simp [executeAdviceList, sortSliceGo_singleton, execList, hc1, runHandler, skipAdv,
        applyActs, applyAct]
    have ht1 : ∀ ev ∈ t1, ∃ j, ev = Ev.handler .Before j := by
      intro ev hev
      exact executeAdviceList_events .Before (NewContextWithContext false key [])
        chain.before ev (by rw [hB]; exact hev)
    have htrA : ∀ ev ∈ (Ev.phase .Before :: t1) ++ (Ev.phase .Around :: [Ev.handler .Around i]),
        ev ≠ Ev.targetRun := by
      intro ev hev
      rcases List.mem_append.mp hev with h | h
      · rcases List.mem_cons.mp h with h | h
        · rw [h]; simp
        · rcases ht1 ev h with ⟨j, hj⟩; rw [hj]; simp
      · rcases List.mem_cons.mp h with h | h
        · rw [h]; simp
        · simp at h; rw [h]; simp
    simp only [executeWithAdviceContext, hch, hB, hHA, if_true, hAexec]
    set c2 := ({ c1 with skipped := true }).SetResult 0 (some v) with hc2
    have hc2skip : c2.skipped = true := (SetResult_fields _ 0 (some v)).1
    have hc2slot : c2.results.getD 0 none = some v := setResult0_getD _ (some v)
    rw [if_pos hc2skip]
    by_cases hcond : c2.error = none ∧ ¬ c2.HasPanic = true
    · rw [if_pos hcond]
      rcases hARx : executeAdviceList .AfterReturning c2 chain.afterReturning
        with ⟨c3, t3, r3⟩
      have h3 := slot0_executeAdviceList .AfterReturning c2 chain.afterReturning hAR
      rw [hARx] at h3
      have hFN := slot0_finishNormal chain c3
        (((Ev.phase .Before :: t1) ++ (Ev.phase .Around :: [Ev.handler .Around i]))
          ++ (Ev.phase .AfterReturning :: t3)) hAf
      refine ⟨hFN.2.2, hFN.1.trans (h3.1.trans hc2skip),
        hFN.2.1.trans (h3.2.trans hc2slot), ?_⟩
      intro ev hev
      rcases mem_finishNormal_trace _ _ _ _ hev with h | h | ⟨j, h⟩
      · rcases List.mem_append.mp h with h | h
        · exact htrA ev h
        · rcases List.mem_cons.mp h with h | h
          · rw [h]; simp
          · rcases executeAdviceList_events .AfterReturning c2 chain.afterReturning ev
              (by rw [hARx]; exact h) with ⟨j, hj⟩
            rw [hj]; simp
      · rw [h]; simp
      · rw [h]; simp
    · rw [if_neg hcond]
      have hFN := slot0_finishNormal chain c2
        ((Ev.phase .Before :: t1) ++ (Ev.phase .Around :: [Ev.handler .Around i])) hAf
      refine ⟨hFN.2.2, hFN.1.trans hc2skip, hFN.2.1.trans hc2slot, ?_⟩
      intro ev hev
      rcases mem_finishNormal_trace _ _ _ _ hev with h | h | ⟨j, h⟩
      · exact htrA ev h
      · rw [h]; simp
      · rw [h]; simp
  have h := hfacts { acts := [HAct.hSetResult 0 (some fnRet)], panics := none }
  refine ⟨executeWithAdviceContext reg key false
    { acts := [HAct.hSetResult 0 (some fnRet)], panics := none } [], ?_, ?_⟩
  · simp only [Wrap0R]
    rw [h.1]
    have hnm : ¬ Ev.targetRun ∈ (executeWithAdviceContext reg key false
        { acts := [HAct.hSetResult 0 (some fnRet)], panics := none } []).trace :=
      fun hm => (h.2.2.2 _ hm) rfl
    rw [if_neg hnm]
    rw [if_pos ⟨h.2.1, length_pos_of_getD0 _ v h.2.2.1, by rw [h.2.2.1]; simp⟩]
    rw [h.2.2.1]
    simp
  · exact fun hm => (h.2.2.2 _ hm) rfl

/-- Witness for C5: the concrete skip chain caching 42 over a target that
would return 7. -/
theorem C5_skip_prefers_around_result_witness :
    ∃ er, Wrap0R skipReg "G" false 7 = .ok (42, er) ∧ Ev.targetRun ∉ er.trace :=
  C5_skip_prefers_around_result skipReg "G" 7 0 3 42 skipChain (by rfl) (by rfl)
    (by decide) (by decide) (by decide)

/-! ### C6 -/

/-- C6 as stated is false on the code: suppression does not work.  An
After advice sets the Context's error field to nil while the thunk
returned user error 7; the wrapper's override only fires on a non-nil
field, so the caller still receives user error 7, not the nil the advice
stored. -/
theorem C6_counterexample :
    Wrap0E clearErrReg "K" false (some (.user 7))
      = .ok (some (.user 7),
          executeWithAdviceContext clearErrReg "K" false
            { acts := [HAct.hSetError (some (.user 7))], panics := none } [])
    ∧ (executeWithAdviceContext clearErrReg "K" false
        { acts := [HAct.hSetError (some (.user 7))], panics := none } []).ctx.error = none
    ∧ Ev.handler .After 2
        ∈ (executeWithAdviceContext clearErrReg "K" false
            { acts := [HAct.hSetError (some (.user 7))], panics := none } []).trace :=
  ⟨by rfl, by decide, by decide⟩

/-- C6 (amended): when the wrapped call returns normally, a NON-nil error
left in the Context by any advice is returned to the caller in place of
the error the thunk produced, so advice can transform or replace the
target's error; setting the field to nil does not suppress the thunk's
error. -/
theorem C6_error_override (reg : Registry) (key : String) (cancelled : Bool)
    (fnErr : Option GoErr) (e : GoErr) (res : Option GoErr × EngineResult)
    (hok : Wrap0E reg key cancelled fnErr = .ok res)
    (herr : res.2.ctx.error = some e) :
    res.1 = some e := by
  simp only [Wrap0E] at hok
  cases hp : (executeWithAdviceContext reg key cancelled
      { acts := [HAct.hSetError fnErr], panics := none } []).panicked with
  | some p =>
    rw [hp] at hok
    simp at hok
  | none =>
    rw [hp] at hok
    simp only [Except.ok.injEq] at hok
    rw [← hok] at herr ⊢
    simp only [] at herr ⊢
    rw [herr]
    simp

/-- Witness for C6's amended theorem: an After advice replaces the
thunk's user error 7 with user error 9 and the caller sees 9. -/
theorem C6_error_override_witness :
    ((some (GoErr.user 9) : Option GoErr),
      executeWithAdviceContext replaceErrReg "M" false
        { acts := [HAct.hSetError (some (.user 7))], panics := none } []).1
      = some (GoErr.user 9) :=
  C6_error_override replaceErrReg "M" false (some (.user 7)) (.user 9) _
    (by rfl) (by decide)

/-! ### C2: insertion sort is the stable descending sort -/

/-- Reading a non-negative index is getD. -/
theorem iget_nonneg (l : List Advice) (i : Int) (h0 : 0 ≤ i) :
    iget l i = l.getD i.toNat dAdv := by
  simp only [iget]
  split
  · rename_i h
    rw [List.get_eq_getElem, List.getD_eq_getElem?_getD, List.getElem?_eq_getElem h.2]
    rfl
  · rename_i h
    rw [List.getD_eq_getElem?_getD, List.getElem?_eq_none (by omega)]
    rfl

/-- Reading the first position after a block. -/
theorem iget_append_cons (u : List Advice) (z : Advice) (w : List Advice) :
    iget (u ++ z :: w) (u.length : Int) = z := by
  rw [iget_nonneg _ _ (by omega)]
  have ht : ((u.length : Int)).toNat = u.length := by omega
  rw [ht, List.getD_eq_getElem?_getD, List.getElem?_append_right (le_refl _)]
  simp

/-- Reading the head. -/
theorem iget_zero (x : Advice) (l : List Advice) : iget (x :: l) 0 = x := by
  rw [iget_nonneg _ _ (by omega)]
  rfl

/-- Reading past a head. -/
theorem iget_cons (x : Advice) (l : List Advice) (i : Int) (hi : 0 ≤ i) :
    iget (x :: l) (i + 1) = iget l i := by
  rw [iget_nonneg _ _ (by omega), iget_nonneg _ _ hi]
  have ht : (i + 1).toNat = i.toNat + 1 := by omega
  rw [ht]
  rfl

/-- Swapping under a head. -/
theorem iswap_cons (x : Advice) (l : List Advice) (i j : Int) (hi : 0 ≤ i) (hj : 0 ≤ j) :
    iswap (x :: l) (i + 1) (j + 1) = x :: iswap l i j := by
  have hi1 : (i + 1).toNat = i.toNat + 1 := by omega
  have hj1 : (j + 1).toNat = j.toNat + 1 := by omega
  simp only [iswap, hi1, hj1, List.length_cons]
  by_cases h : 0 ≤ i ∧ 0 ≤ j ∧ i.toNat < l.length ∧ j.toNat < l.length
  · rw [if_pos (show 0 ≤ i + 1 ∧ 0 ≤ j + 1 ∧ i.toNat + 1 < l.length + 1
        ∧ j.toNat + 1 < l.length + 1 from ⟨by omega, by omega, by omega, by omega⟩),
      if_pos h]
    rw [iget_cons x l i hi, iget_cons x l j hj]
    rfl
  · rw [if_neg (fun hc => h ⟨hi, hj, by omega, by omega⟩), if_neg h]

/-- Swapping two adjacent elements after a block. -/
theorem iswap_adj (u : List Advice) (z1 z2 : Advice) (w : List Advice) :
    iswap (u ++ z1 :: z2 :: w) ((u.length : Int) + 1) (u.length : Int)
      = u ++ z2 :: z1 :: w := by
  induction u with
  | nil =>
    simp only [List.nil_append, List.length_nil, Int.ofNat_zero]
    rw [show ((0 : Int) + 1) = 0 + 1 from rfl]
    simp only [iswap]
    rw [if_pos (show (0 : Int) ≤ 0 + 1 ∧ (0 : Int) ≤ 0
        ∧ ((0 : Int) + 1).toNat < (z1 :: z2 :: w).length
        ∧ ((0 : Int)).toNat < (z1 :: z2 :: w).length from
        ⟨by omega, by omega, by simp, by simp⟩)]
    rw [iget_cons z1 (z2 :: w) 0 (by omega), iget_zero, iget_zero]
    rfl
  | cons a u' ih =>
    have hcast : (((a :: u').length : Nat) : Int) = ((u'.length : Int) + 1) := by
      simp
    rw [List.cons_append, hcast]
    rw [show (u'.length : Int) + 1 + 1 = ((u'.length : Int) + 1) + 1 from rfl]
    rw [iswap_cons a _ ((u'.length : Int) + 1) (u'.length : Int) (by omega) (by omega)]
    rw [ih]
    rfl

/-- insertDesc grows the list by one. -/
theorem length_insertDesc (x : Advice) (s : List Advice) :
    (insertDesc x s).length = s.length + 1 := by
  induction s with
  | nil => rfl
  | cons y ys ih =>
    simp only [insertDesc]
    split
    · simp
    · simp [ih]

/-- Membership in an insertion. -/
theorem mem_insertDesc (x y : Advice) (s : List Advice) :
    y ∈ insertDesc x s ↔ y = x ∨ y ∈ s := by
  induction s with
  | nil => simp [insertDesc]
  | cons z zs ih =>
    simp only [insertDesc]
    split
    all_goals simp only [List.mem_cons, ih]
    all_goals tauto

/-- Inserting an element greater than a trailing element passes it. -/
theorem insertDesc_append_gt (x y : Advice) (s : List Advice)
    (h : x.priority > y.priority) :
    insertDesc x (s ++ [y]) = insertDesc x s ++ [y] := by
  induction s with
  | nil => simp [insertDesc, h]
  | cons z zs ih =>
    simp only [List.cons_append, insertDesc]
    split
    · rfl
    · simp only [List.append_eq]
      rw [ih]
      rfl

/-- Inserting a minimal element appends it. -/
theorem insertDesc_append_le (x : Advice) (s : List Advice)
    (h : ∀ z ∈ s, x.priority ≤ z.priority) :
    insertDesc x s = s ++ [x] := by
  induction s with
  | nil => rfl
  | cons z zs ih =>
    simp only [insertDesc]
    rw [if_neg (by have := h z (by simp); omega)]
    rw [ih fun z hz => h z (by simp [hz])]
    rfl

/-- Insertion preserves descending sortedness. -/
theorem sorted_insertDesc (x : Advice) (s : List Advice)
    (hs : List.Pairwise (fun a b : Advice => b.priority ≤ a.priority) s) :
    List.Pairwise (fun a b : Advice => b.priority ≤ a.priority) (insertDesc x s) := by
  induction s with
  | nil => simp [insertDesc]
  | cons z zs ih =>
    rcases List.pairwise_cons.mp hs with ⟨hz, hzs⟩
    simp only [insertDesc]
    split
    · rename_i hgt
      refine List.pairwise_cons.mpr ⟨?_, hs⟩
      intro b hb
      rcases List.mem_cons.mp hb with h | h
      · rw [h]; omega
      · have := hz b h; omega
    · rename_i hle
      refine List.pairwise_cons.mpr ⟨?_, ih hzs⟩
      intro b hb
      rcases (mem_insertDesc x b zs).mp hb with h | h
      · rw [h]; omega
      · exact hz b h

/-- The insertion-sort inner loop inserts the element at position
`s.length` into the sorted prefix `s`, at the stable position. -/
theorem insInner_insert (x : Advice) (s : List Advice) :
    ∀ (r : List Advice), List.Pairwise (fun a b : Advice => b.priority ≤ a.priority) s →
    insInnerF (s ++ x :: r) 0 (s.length : Int) s.length = insertDesc x s ++ r := by
  induction s using List.reverseRecOn with
  | nil => intro r hs; rfl
  | append_singleton s' y ih =>
    intro r hs
    have hsplit : List.Pairwise (fun a b : Advice => b.priority ≤ a.priority) s'
        ∧ ∀ z ∈ s', y.priority ≤ z.priority := by
      rcases List.pairwise_append.mp hs with ⟨h1, _h2, h3⟩
      exact ⟨h1, fun z hz => h3 z hz y (by simp)⟩
    have hfuel : (s' ++ [y]).length = s'.length + 1 := by simp
    have hassoc : (s' ++ [y]) ++ x :: r = s' ++ y :: x :: r := by
      rw [List.append_assoc]; rfl
    have hsub : ((s'.length + 1 : Nat) : Int) - 1 = (s'.length : Int) := by push_cast; ring
    have hgx : iget ((s' ++ [y]) ++ x :: r) ((s'.length + 1 : Nat) : Int) = x := by
      rw [← hfuel]; exact iget_append_cons _ _ _
    have hgy : iget ((s' ++ [y]) ++ x :: r) (((s'.length + 1 : Nat) : Int) - 1) = y := by
      rw [hsub, hassoc]
      exact iget_append_cons s' y (x :: r)
    have hil : iless ((s' ++ [y]) ++ x :: r) ((s'.length + 1 : Nat) : Int)
        (((s'.length + 1 : Nat) : Int) - 1) = decide (x.priority > y.priority) := by
      simp only [iless, hgx, hgy]
    have hsw : iswap ((s' ++ [y]) ++ x :: r) ((s'.length + 1 : Nat) : Int)
        (((s'.length + 1 : Nat) : Int) - 1) = s' ++ x :: y :: r := by
      rw [hsub, hassoc]
      have hc : ((s'.length + 1 : Nat) : Int) = (s'.length : Int) + 1 := by push_cast; ring
      rw [hc]
      exact iswap_adj s' y x r
    rw [hfuel]
    simp only [insInnerF]
    by_cases hxy : x.priority > y.priority
    · rw [if_pos (And.intro (by omega) (by rw [hil]; simp [hxy]))]
      rw [hsw, hsub]
      rw [ih (y :: r) hsplit.1]
      rw [insertDesc_append_gt x y s' hxy]
      simp
    · rw [if_neg (fun hcond => hxy (by
        have h2 := hcond.2
        rw [hil] at h2
        simpa using h2))]
      rw [insertDesc_append_le x (s' ++ [y]) ?hmin]
      · simp
      case hmin =>
        intro z hz
        rcases List.mem_append.mp hz with h | h
        · have h1 := hsplit.2 z h
          omega
        · simp at h
          rw [h]
          omega

/-- The insertion-sort outer loop folds the remaining elements into the
sorted prefix by stable insertion. -/
theorem insOuter_fold (r : List Advice) :
    ∀ (s : List Advice), List.Pairwise (fun a b : Advice => b.priority ≤ a.priority) s →
    insOuterF (s ++ r) 0 ((s.length + r.length : Nat) : Int) (s.length : Int) r.length
      = r.foldl (fun acc x => insertDesc x acc) s := by
  induction r with
  | nil =>
    intro s hs
    simp [insOuterF]
  | cons x r' ih =>
    intro s hs
    simp only [insOuterF]
    rw [if_pos (show (s.length : Int) < ((s.length + (x :: r').length : Nat) : Int) by
      simp only [List.length_cons]; push_cast; omega)]
    have hInner : insInner (s ++ x :: r') 0 (s.length : Int) = insertDesc x s ++ r' := by
      unfold insInner
      have ht : ((s.length : Int) - 0).toNat = s.length := by omega
      rw [ht]
      exact insInner_insert x s r' hs
    rw [hInner]
    have hlen : (insertDesc x s).length = s.length + 1 := length_insertDesc x s
    have hcast1 : (s.length : Int) + 1 = ((insertDesc x s).length : Int) := by
      rw [hlen]; push_cast; ring
    have hcast2 : ((s.length + (x :: r').length : Nat) : Int)
        = (((insertDesc x s).length + r'.length : Nat) : Int) := by
      rw [hlen]; push_cast; simp; ring
    rw [hcast1, hcast2]
    rw [ih (insertDesc x s) (sorted_insertDesc x s hs)]
    rfl

/-- insertionSort_func over a whole slice is exactly the stable
descending sort the specification describes. -/
theorem insertionSortGo_eq_stable (l : List Advice) :
    insertionSortGo l 0 (l.length : Int) = stableSortDesc l := by
  cases l with
  | nil => rfl
  | cons x l' =>
    unfold insertionSortGo insOuter
    have hfuel : (((x :: l').length : Int) - (0 + 1)).toNat = l'.length := by
      simp
    rw [hfuel]
    have hb : (((x :: l').length : Nat) : Int)
        = ((([x] : List Advice).length + l'.length : Nat) : Int) := by
      simp [Nat.add_comm]
    rw [hb]
    have hi : ((0 : Int) + 1) = (([x] : List Advice).length : Int) := by simp
    rw [hi]
    have hl : (x :: l' : List Advice) = [x] ++ l' := rfl
    rw [hl]
    rw [insOuter_fold l' [x] (by simp)]
    rfl

/-- One step of the pdqsort loop below the insertion cutoff is exactly
insertion sort. -/
theorem pdqsortLoop_le12 (l : List Advice) (a b limit : Int) (wb wp : Bool) (f : Nat)
    (h : b - a ≤ 12) :
    pdqsortLoop l a b limit wb wp (f + 1) = insertionSortGo l a b := by
  simp only [pdqsortLoop]
  rw [if_pos h]

/-- Below sort.Slice's insertion cutoff (12 elements) pdqsort is exactly
one insertion sort over the whole slice. -/
theorem sortSliceGo_le12 (l : List Advice) (h : l.length ≤ 12) :
    sortSliceGo l = insertionSortGo l 0 (l.length : Int) := by
  show pdqsortLoop l 0 l.length (goBitsLen l.length : Nat) true true (2 * l.length + 63 + 1)
      = insertionSortGo l 0 (l.length : Int)
  rw [pdqsortLoop_le12 l 0 (l.length : Int) (goBitsLen l.length : Nat) true true
    (2 * l.length + 63) (by omega)]

/-! ### C2 -/

set_option maxRecDepth 40000 in
/-- C2 as stated is false on the code: the execution-time sort is Go's
sort.Slice, which is not stable beyond its 12-element insertion-sort
cutoff.  Concretely, for a bucket of thirteen advice inserted with
identities 0..12, all of priority 5 except identity 6 of priority 1,
the phase executes identity 9 first — before the equal-priority
identities 0..8 that were inserted earlier — because pdqsort's first
partition step swaps the pivot (position 9) to the front. -/
theorem C2_counterexample :
    cex13.map (fun a => (a.id, a.priority))
      = [(0, 5), (1, 5), (2, 5), (3, 5), (4, 5), (5, 5), (6, 1), (7, 5), (8, 5), (9, 5),
         (10, 5), (11, 5), (12, 5)]
    ∧ (executeAdviceList .Before (NewContextWithContext false "F" []) cex13).2.1
      = [9, 1, 2, 3, 4, 5, 7, 8, 0, 10, 11, 12, 6].map (fun j => Ev.handler .Before j) := by
  exact ⟨by decide, by decide⟩

/-- C2 (amended): for every phase execution over a live (non-cancelled)
context whose bucket holds at most 12 advice, none of which fails, the
handlers execute exactly in the stable descending-priority order: strictly
descending priority, with equal priorities in insertion order (sort.Slice
is a stable insertion sort up to 12 elements).  Beyond 12 advice in one
phase the tie order is not guaranteed, as the counterexample shows. -/
theorem C2_descending_stable_le12 (ph : AdviceType) (c : Context) (l : List Advice)
    (hc : c.cancelled = false)
    (hlen : l.length ≤ 12)
    (hr : ∀ x ∈ l, x.ret = none) :
    (executeAdviceList ph c l).2.1
      = (stableSortDesc l).map (fun x => Ev.handler ph x.id) := by
  simp only [executeAdviceList]
  split
  · rename_i h0
    have hnil : l = [] := List.length_eq_zero.mp h0
    subst hnil
    rfl
  · rw [(execList_ok ph (sortSliceGo l) c hc
        (fun x hx => hr x (mem_sortSliceGo l x hx))).1,
      sortSliceGo_le12 l hlen, insertionSortGo_eq_stable]

/-- Witness for C2's amended theorem: priorities 10, 100, 10 with
identities 1, 2, 3 execute as 2, 1, 3 — descending priority, insertion
order on the tie. -/
theorem C2_descending_stable_le12_witness :
    (executeAdviceList .Before (NewContextWithContext false "F" [])
        [mkAdv .Before 10 1, mkAdv .Before 100 2, mkAdv .Before 10 3]).2.1
      = (stableSortDesc [mkAdv .Before 10 1, mkAdv .Before 100 2, mkAdv .Before 10 3]).map
          (fun x => Ev.handler .Before x.id)
    ∧ (stableSortDesc [mkAdv .Before 10 1, mkAdv .Before 100 2, mkAdv .Before 10 3]).map
        (fun x => Ev.handler .Before x.id)
      = [Ev.handler .Before 2, Ev.handler .Before 1, Ev.handler .Before 3] :=
  ⟨C2_descending_stable_le12 .Before (NewContextWithContext false "F" [])
      [mkAdv .Before 10 1, mkAdv .Before 100 2, mkAdv .Before 10 3]
      (by rfl) (by decide) (by decide),
   by decide⟩

end Gosaidsno
